import Mathlib

/-!
Shallow embedding of the `LinkedListSkipList` memtable of limonitedb
(src/src/memtable/linkedlist_skiplist.rs, trait in src/src/memtable/skiplist.rs).

Modelling choices:
* Heap nodes live in an arena `nodes : List Node`; a raw pointer
  `NonNull<Node<Key>>` becomes either the sentinel head or an arena index
  (`Ptr`).  `Link<Key> = Option<NonNull<..>>` becomes `Option Nat`
  (links never point at the sentinel in the source: only `set_next` with a
  freshly allocated node ever writes a link).
* The source is generic over `Key : Ord + Default`.  We instantiate it with
  `Key := Nat × Nat` ordered by the FIRST component only (a lawful Rust `Ord`
  whose comparison ignores the second component); the second component plays
  the role of the associated data carried by a key, so that two keys can
  compare equal while holding different payloads.  `Key::default()` is
  `(0, 0)`.
* `fastrand::bool()` is an external stream of independent random bits,
  modelled as a function `coins : Nat → Bool` consumed left to right.
* Rust `while`/`loop`s become fuel-indexed structural recursions.  The fuel
  passed at each call site is sufficient for every list the source can build
  (proved via the well-formedness invariant below); the fuel-exhausted
  branches are unreachable there.
* `MAX_HEIGHT` is the structural parameter `H`.
-/

namespace Limonite

/-- The key type: ordered by the first component, the second component is the
payload that rides along with the key (see module comment). -/
abbrev Key := Nat × Nat

/-- `struct Node { key, links }` — `links` has one slot per level the node
participates in (its height). -/
structure Node where
  key : Key
  links : List (Option Nat)
deriving DecidableEq

instance : Inhabited Node := ⟨⟨(0, 0), []⟩⟩

/-- `struct LinkedListSkipList { head, current_height, current_size }` with the
owned heap nodes made explicit as an arena. -/
structure SkipList where
  head : Node
  nodes : List Node
  current_height : Nat
  current_size : Nat
deriving DecidableEq

/-- A non-null node pointer: the sentinel head or an arena index. -/
inductive Ptr where
  | head : Ptr
  | node : Nat → Ptr
deriving DecidableEq

/-- Dereference a pointer. -/
def SkipList.nodeAt (sl : SkipList) : Ptr → Node
  | Ptr.head => sl.head
  | Ptr.node i => sl.nodes.getD i default

/-- Key stored at arena index `i`. -/
def SkipList.keyAt (sl : SkipList) (i : Nat) : Key :=
  (sl.nodes.getD i default).key

/-- Height (number of link slots) of the node at arena index `i`. -/
def SkipList.heightOf (sl : SkipList) (i : Nat) : Nat :=
  (sl.nodes.getD i default).links.length

/-- Number of link slots behind a pointer. -/
def SkipList.linkLen (sl : SkipList) (p : Ptr) : Nat :=
  (sl.nodeAt p).links.length

/-- `Node::next(n)`: the level-`lvl` forward link of the node behind `p`. -/
def SkipList.linkAt (sl : SkipList) (p : Ptr) (lvl : Nat) : Option Nat :=
  (sl.nodeAt p).links.getD lvl none

/-- `Node::set_next(n, x)`. -/
def Node.set_next (nd : Node) (lvl : Nat) (x : Option Nat) : Node :=
  { nd with links := nd.links.set lvl x }

/-- Write the level-`lvl` forward link of the node behind `p`. -/
def SkipList.setLink (sl : SkipList) (p : Ptr) (lvl : Nat) (x : Option Nat) : SkipList :=
  match p with
  | Ptr.head => { sl with head := sl.head.set_next lvl x }
  | Ptr.node i => { sl with nodes := sl.nodes.set i ((sl.nodes.getD i default).set_next lvl x) }

/-- `head_next(level)`. -/
def SkipList.head_next (sl : SkipList) (lvl : Nat) : Option Nat :=
  sl.linkAt Ptr.head lvl

/-- `LinkedListSkipList::new()`: sentinel with `MAX_HEIGHT` empty links and the
default key, height and size zero. -/
def SkipList.new (H : Nat) : SkipList :=
  { head := { key := (0, 0), links := List.replicate H none }
    nodes := []
    current_height := 0
    current_size := 0 }

/-- The loop of `random_height`: `while height < MAX_HEIGHT && fastrand::bool()
{ height += 1 }`.  The loop runs at most `H - 1` times, so fuel `H` is never
exhausted. -/
def randomHeightGo (coins : Nat → Bool) (H : Nat) : Nat → Nat → Nat → Nat
  | 0, height, _ => height
  | fuel + 1, height, i =>
    if height < H ∧ coins i then randomHeightGo coins H fuel (height + 1) (i + 1) else height

/-- `random_height()`. -/
def random_height (H : Nat) (coins : Nat → Bool) : Nat :=
  randomHeightGo coins H H 1 0

/-- The `loop` of `find_equal_or_less_then`, over state
(`search_level`, `current_node`, `previous`).  One fuel unit per iteration;
each iteration either descends a level or advances to a strictly larger key,
so the fuel passed by `find_equal_or_less_then` always suffices. -/
def felLoop (sl : SkipList) (k : Nat) : Nat → Nat → Ptr → List Ptr → Option Nat × List Ptr
  | 0, _, _, prev => (none, prev)
  | fuel + 1, lvl, cur, prev =>
    let prev1 := prev.set lvl cur
    match sl.linkAt cur lvl with
    | none =>
      if lvl = 0 then (none, prev1) else felLoop sl k fuel (lvl - 1) cur prev1
    | some nxt =>
      if k ≤ (sl.keyAt nxt).1 then
        if (sl.keyAt nxt).1 = k then (some nxt, prev1)
        else if lvl = 0 then (none, prev1)
        else felLoop sl k fuel (lvl - 1) cur prev1
      else felLoop sl k fuel lvl (Ptr.node nxt) prev1

/-- `find_equal_or_less_then`: exact-match search that also records, per level,
the last node visited before overshooting (`previous`, initialised to all
head).  Keys are compared through the chosen `Ord`, i.e. first components.
The `head_next(0).unwrap()` of the source can only be reached with a present
level-0 link for well-formed lists; the impossible branch returns the
untouched trace. -/
def find_equal_or_less_then (H : Nat) (sl : SkipList) (key : Key) :
    Option Nat × List Ptr :=
  let prev0 : List Ptr := List.replicate H Ptr.head
  if sl.current_height = 0 then (none, prev0)
  else
    match sl.head_next 0 with
    | none => (none, prev0)
    | some first =>
      if key.1 < (sl.keyAt first).1 then (none, prev0)
      else
        felLoop sl key.1 (sl.nodes.length + sl.current_height + 1)
          (sl.current_height - 1) Ptr.head prev0

/-- The `loop` of `find_equal_or_greater_then`. -/
def fegLoop (sl : SkipList) (k : Nat) : Nat → Nat → Ptr → Option Nat
  | 0, _, _ => none
  | fuel + 1, lvl, cur =>
    match sl.linkAt cur lvl with
    | none => if lvl = 0 then none else fegLoop sl k fuel (lvl - 1) cur
    | some nxt =>
      if k ≤ (sl.keyAt nxt).1 then
        if (sl.keyAt nxt).1 = k ∨ lvl = 0 then some nxt
        else fegLoop sl k fuel (lvl - 1) cur
      else fegLoop sl k fuel lvl (Ptr.node nxt)

/-- `find_equal_or_greater_then`: note the early `return None` as soon as the
smallest stored key is greater than the target. -/
def find_equal_or_greater_then (sl : SkipList) (key : Key) : Option Nat :=
  if sl.current_height = 0 then none
  else
    match sl.head_next 0 with
    | none => none
    | some first =>
      if key.1 < (sl.keyAt first).1 then none
      else
        fegLoop sl key.1 (sl.nodes.length + sl.current_height + 1)
          (sl.current_height - 1) Ptr.head

/-- The splice loop of `insert`: `for i in 0..height` do
`node.set_next(i, previous[i].next(i)); previous[i].set_next(i, Some(node))`.
Structural recursion on the remaining iteration count. -/
def spliceLoop (n : Nat) (previous : List Ptr) : Nat → SkipList → Nat → SkipList
  | _, sl, 0 => sl
  | i, sl, remaining + 1 =>
    let p := previous.getD i Ptr.head
    let sl1 := sl.setLink (Ptr.node n) i (sl.linkAt p i)
    let sl2 := sl1.setLink p i (some n)
    spliceLoop n previous (i + 1) sl2 remaining

/-- The arena after `Node::new_link(key, height)` of the `insert` none branch:
the fresh node (all links null) is appended, its pointer is the old length. -/
def SkipList.pushNode (sl : SkipList) (key : Key) (ht : Nat) : SkipList :=
  { sl with nodes := sl.nodes ++ [{ key := key, links := List.replicate ht none }] }

/-- `SkipList::insert`: on an exact match, overwrite the stored key in place;
otherwise draw a height, allocate the node and splice it in after the
recorded predecessors, then bump `current_height` and `current_size`. -/
def SkipList.insert (sl : SkipList) (H : Nat) (coins : Nat → Bool) (key : Key) : SkipList :=
  let fr := find_equal_or_less_then H sl key
  match fr.1 with
  | some j =>
    { sl with nodes := sl.nodes.set j { sl.nodes.getD j default with key := key } }
  | none =>
    let height := random_height H coins
    let n := sl.nodes.length
    let sl1 : SkipList :=
      { sl with nodes := sl.nodes ++ [{ key := key, links := List.replicate height none }] }
    let sl2 := spliceLoop n fr.2 0 sl1 height
    { sl2 with
        current_height := max sl.current_height height
        current_size := sl.current_size + 1 }

/-- `SkipList::contains`. -/
def SkipList.contains (sl : SkipList) (H : Nat) (key : Key) : Bool :=
  (find_equal_or_less_then H sl key).1.isSome

/-- `SkipList::estimate_count`: the source ignores its argument and returns
`current_size`. -/
def SkipList.estimate_count (sl : SkipList) (_key : Key) : Nat :=
  sl.current_size

/-- `LinkedListSkipListIterator { skip_list, current }`. -/
structure Iter where
  skip_list : SkipList
  current : Option Ptr
deriving DecidableEq

/-- `into_iter()`: the cursor starts at the sentinel head. -/
def SkipList.into_iter (sl : SkipList) : Iter :=
  { skip_list := sl, current := some Ptr.head }

/-- `SkipListIterator::valid`. -/
def Iter.valid (it : Iter) : Bool :=
  it.current.isSome

/-- `SkipListIterator::key`: `Some(&current.key)` when a current node exists. -/
def Iter.key (it : Iter) : Option Key :=
  match it.current with
  | some p => some (it.skip_list.nodeAt p).key
  | none => none

/-- `SkipListIterator::advance`: follow `links[0]` when present, otherwise do
nothing.  The `self.current.unwrap()` of the source can only panic when
`current` is `None`, which never happens (claim C10); that branch is modelled
as the identity. -/
def Iter.advance (it : Iter) : Iter :=
  match it.current with
  | none => it
  | some p =>
    match (it.skip_list.nodeAt p).links.getD 0 none with
    | some j => { it with current := some (Ptr.node j) }
    | none => it

/-- `Iterator::next`: returns the key stepped to, advancing `current` on
`Some` and leaving it untouched at the end of the list. -/
def Iter.next (it : Iter) : Option Key × Iter :=
  match it.current with
  | none => (none, it)
  | some p =>
    match (it.skip_list.nodeAt p).links.getD 0 none with
    | some j => (some (it.skip_list.keyAt j), { it with current := some (Ptr.node j) })
    | none => (none, it)

/-- `SkipListIterator::seek`: reposition on a hit, silently do nothing when
`find_equal_or_greater_then` returns `None` (the TODO branch of the source). -/
def Iter.seek (it : Iter) (target : Key) : Iter :=
  match find_equal_or_greater_then it.skip_list target with
  | some j => { it with current := some (Ptr.node j) }
  | none => it

/-- `SkipListIterator::seek_to_first`: `self.current = Some(self.skip_list.head)`. -/
def Iter.seek_to_first (it : Iter) : Iter :=
  { it with current := some Ptr.head }

/-! Derived observations: chains, key sets, insert sequences, cursor scripts. -/

/-- Follow the level-`lvl` forward links starting from a link value, collecting
the arena indices visited (fuel-bounded; `nodes.length + 1` always suffices
for well-formed lists). -/
def chainFrom (sl : SkipList) (lvl : Nat) : Nat → Option Nat → List Nat
  | 0, _ => []
  | _ + 1, none => []
  | fuel + 1, some i => i :: chainFrom sl lvl fuel (sl.linkAt (Ptr.node i) lvl)

/-- The full level-`lvl` forward chain of the list, starting at the sentinel. -/
def levelChain (sl : SkipList) (lvl : Nat) : List Nat :=
  chainFrom sl lvl (sl.nodes.length + 1) (sl.linkAt Ptr.head lvl)

/-- Some stored node carries a key whose first component is `x`. -/
def SkipList.hasKey (sl : SkipList) (x : Nat) : Prop :=
  ∃ i, i < sl.nodes.length ∧ (sl.keyAt i).1 = x

/-- Run a finite sequence of `insert` calls (each with its own random coins)
against a fresh list. -/
def applyInserts (H : Nat) (ops : List (Key × (Nat → Bool))) : SkipList :=
  ops.foldl (fun sl op => sl.insert H op.2 op.1) (SkipList.new H)

/-- First components of the keys passed to `insert` in an op sequence. -/
def insertedKeys (ops : List (Key × (Nat → Bool))) : List Nat :=
  ops.map (fun op => op.1.1)

/-- Cursor operations of the iterator interface (the ones implemented). -/
inductive IterOp where
  | seekToFirst : IterOp
  | seekTo : Key → IterOp
  | advance : IterOp
  | next : IterOp

/-- Apply one cursor operation. -/
def applyIterOp (it : Iter) : IterOp → Iter
  | IterOp.seekToFirst => it.seek_to_first
  | IterOp.seekTo t => it.seek t
  | IterOp.advance => it.advance
  | IterOp.next => (it.next).2

/-- Apply a finite script of cursor operations. -/
def applyIterOps (it : Iter) (ops : List IterOp) : Iter :=
  ops.foldl applyIterOp it

/-! The well-formedness invariant of reachable lists. -/

/-- `p` is a valid pointer of `sl`. -/
def SkipList.ptrOk (sl : SkipList) : Ptr → Prop
  | Ptr.head => True
  | Ptr.node i => i < sl.nodes.length

/-- The key behind `p` is strictly below `x`; the sentinel counts as strictly
below everything. -/
def SkipList.ptrLt (sl : SkipList) (p : Ptr) (x : Nat) : Prop :=
  match p with
  | Ptr.head => True
  | Ptr.node i => (sl.keyAt i).1 < x

instance (sl : SkipList) (p : Ptr) (x : Nat) : Decidable (sl.ptrLt p x) :=
  match p with
  | Ptr.head => isTrue trivial
  | Ptr.node i => inferInstanceAs (Decidable ((sl.keyAt i).1 < x))

instance (sl : SkipList) (p : Ptr) : Decidable (sl.ptrOk p) :=
  match p with
  | Ptr.head => isTrue trivial
  | Ptr.node i => inferInstanceAs (Decidable (i < sl.nodes.length))

/-- Local specification of a link slot: a present link points forward to the
very next node of its level (everything strictly in between is too short for
the level); an absent link means no taller-than-`lvl` node lies ahead. -/
def SkipList.linkSpec (sl : SkipList) (p : Ptr) (lvl : Nat) : Prop :=
  (∀ j, sl.linkAt p lvl = some j →
    j < sl.nodes.length ∧ sl.ptrLt p ((sl.keyAt j).1) ∧ lvl < sl.heightOf j ∧
      ∀ u, u < sl.nodes.length → sl.ptrLt p ((sl.keyAt u).1) →
        (sl.keyAt u).1 < (sl.keyAt j).1 → sl.heightOf u ≤ lvl) ∧
  (sl.linkAt p lvl = none →
    ∀ u, u < sl.nodes.length → sl.ptrLt p ((sl.keyAt u).1) → sl.heightOf u ≤ lvl)

/-- Well-formedness of a list with height bound `H`: every state reachable by
`insert` from `SkipList.new H` satisfies it. -/
structure SkipList.WF (H : Nat) (sl : SkipList) : Prop where
  head_len : sl.head.links.length = H
  height_pos : ∀ i, i < sl.nodes.length → 1 ≤ sl.heightOf i
  height_le : ∀ i, i < sl.nodes.length → sl.heightOf i ≤ sl.current_height
  ch_le : sl.current_height ≤ H
  distinct : ∀ i, i < sl.nodes.length → ∀ j, j < sl.nodes.length → i ≠ j →
    (sl.keyAt i).1 ≠ (sl.keyAt j).1
  links : ∀ p, sl.ptrOk p → ∀ lvl, lvl < sl.linkLen p → sl.linkSpec p lvl

/-- `p` is the level-`lvl` predecessor of target key `k`: it sits before `k`,
participates in level `lvl`, and no level-`lvl` node lies strictly between. -/
def SkipList.isPred (sl : SkipList) (k lvl : Nat) (p : Ptr) : Prop :=
  sl.ptrOk p ∧ sl.ptrLt p k ∧ lvl < sl.linkLen p ∧
    ∀ u, u < sl.nodes.length → sl.ptrLt p ((sl.keyAt u).1) → (sl.keyAt u).1 < k →
      sl.heightOf u ≤ lvl

/-- Nodes strictly between pointer `p` and target key `k` (search measure). -/
def SkipList.betweenSet (sl : SkipList) (p : Ptr) (k : Nat) : Finset Nat :=
  (Finset.range sl.nodes.length).filter
    (fun u => sl.ptrLt p ((sl.keyAt u).1) ∧ (sl.keyAt u).1 < k)

/-- Nodes after pointer `p` that participate in level `lvl` (chain measure). -/
def SkipList.afterSet (sl : SkipList) (p : Ptr) (lvl : Nat) : Finset Nat :=
  (Finset.range sl.nodes.length).filter
    (fun u => sl.ptrLt p ((sl.keyAt u).1) ∧ lvl < sl.heightOf u)

/-! Concrete lists used to evaluate the code on the failing inputs of the
corrected / code-bug claims. -/

/-- A coin stream that always comes up tails: every height drawn is 1. -/
def coinsF : Nat → Bool := fun _ => false

/-- Insert 10, 20, 30 (payload 0, all heights 1). -/
def exOps : List (Key × (Nat → Bool)) :=
  [(((10 : Nat), (0 : Nat)), coinsF), (((20 : Nat), (0 : Nat)), coinsF),
    (((30 : Nat), (0 : Nat)), coinsF)]

/-- The list holding keys 10, 20, 30 under `MAX_HEIGHT = 4`. -/
def exList : SkipList := applyInserts 4 exOps

/-- The cursor of `exList` after `seek(30)`: positioned at the last node. -/
def exIterAtLast : Iter := (exList.into_iter).seek ((30 : Nat), (0 : Nat))

/-- Two heads then tails: `random_height` stops after two successful draws. -/
def coinsW : Nat → Bool := fun i => decide (i < 2)

/-- Insert keys 10 (height 1) and 5 (height 2): a small two-node list. -/
def wOps : List (Key × (Nat → Bool)) :=
  [(((10 : Nat), (1 : Nat)), coinsF), (((5 : Nat), (2 : Nat)), fun i => decide (i < 1))]

/-! List access helpers. -/

theorem getD_eq_of_le {α : Type} (l : List α) (i : Nat) (d : α) (h : l.length ≤ i) :
    l.getD i d = d := by
  rw [List.getD_eq_getElem?_getD, List.getElem?_eq_none h]
  rfl

theorem getD_set_self {α : Type} (l : List α) (i : Nat) (a d : α) (h : i < l.length) :
    (l.set i a).getD i d = a := by
  rw [List.getD_eq_getElem?_getD, List.getElem?_set]
  simp [h]

theorem getD_set_ne {α : Type} (l : List α) (i j : Nat) (a d : α) (h : i ≠ j) :
    (l.set i a).getD j d = l.getD j d := by
  rw [List.getD_eq_getElem?_getD, List.getElem?_set, if_neg h, ← List.getD_eq_getElem?_getD]

theorem getD_append_left {α : Type} (l1 l2 : List α) (i : Nat) (d : α) (h : i < l1.length) :
    (l1 ++ l2).getD i d = l1.getD i d := by
  rw [List.getD_eq_getElem?_getD, List.getElem?_append, if_pos h, ← List.getD_eq_getElem?_getD]

theorem getD_append_last {α : Type} (l1 : List α) (a d : α) :
    (l1 ++ [a]).getD l1.length d = a := by
  rw [List.getD_eq_getElem?_getD, List.getElem?_append]
  simp

theorem getD_replicate {α : Type} (n i : Nat) (a d : α) (h : i < n) :
    (List.replicate n a).getD i d = a := by
  rw [List.getD_eq_getElem?_getD, List.getElem?_replicate, if_pos h]
  rfl

theorem getD_replicate_self {α : Type} (n i : Nat) (a : α) :
    (List.replicate n a).getD i a = a := by
  rw [List.getD_eq_getElem?_getD, List.getElem?_replicate]
  split <;> rfl

/-! Accessor and state-update lemmas. -/

theorem linkLen_head (sl : SkipList) : sl.linkLen Ptr.head = sl.head.links.length := rfl

theorem linkLen_node (sl : SkipList) (i : Nat) : sl.linkLen (Ptr.node i) = sl.heightOf i := rfl

theorem ptrLt_head (sl : SkipList) (x : Nat) : sl.ptrLt Ptr.head x := trivial

theorem ptrLt_node (sl : SkipList) (i x : Nat) :
    sl.ptrLt (Ptr.node i) x ↔ (sl.keyAt i).1 < x := Iff.rfl

theorem ptrLt_mono {sl : SkipList} {p : Ptr} {x y : Nat} (h : sl.ptrLt p x) (hxy : x ≤ y) :
    sl.ptrLt p y := by
  cases p with
  | head => trivial
  | node i => exact lt_of_lt_of_le h hxy

theorem heightOf_out {sl : SkipList} {i : Nat} (h : sl.nodes.length ≤ i) : sl.heightOf i = 0 := by
  unfold SkipList.heightOf
  rw [getD_eq_of_le _ _ _ h]
  rfl

theorem set_next_getD (nodes : List Node) (i u lvl : Nat) (x : Option Nat) :
    ((nodes.set i ((nodes.getD i default).set_next lvl x)).getD u default).key =
      (nodes.getD u default).key ∧
    ((nodes.set i ((nodes.getD i default).set_next lvl x)).getD u default).links.length =
      (nodes.getD u default).links.length := by
  by_cases h : i = u
  · subst h
    by_cases hlen : i < nodes.length
    · rw [getD_set_self _ _ _ _ hlen]
      exact ⟨rfl, by simp [Node.set_next]⟩
    · have hle : nodes.length ≤ i := Nat.le_of_not_lt hlen
      have hsetlen : (nodes.set i ((nodes.getD i default).set_next lvl x)).length ≤ i := by
        simpa using hle
      rw [getD_eq_of_le _ _ _ hsetlen, getD_eq_of_le _ _ _ hle]
      exact ⟨rfl, rfl⟩
  · rw [getD_set_ne _ _ _ _ _ h]
    exact ⟨rfl, rfl⟩

theorem keyAt_setLink (sl : SkipList) (p : Ptr) (lvl : Nat) (x : Option Nat) (u : Nat) :
    (sl.setLink p lvl x).keyAt u = sl.keyAt u := by
  cases p with
  | head => rfl
  | node i => exact (set_next_getD sl.nodes i u lvl x).1

theorem heightOf_setLink (sl : SkipList) (p : Ptr) (lvl : Nat) (x : Option Nat) (u : Nat) :
    (sl.setLink p lvl x).heightOf u = sl.heightOf u := by
  cases p with
  | head => rfl
  | node i => exact (set_next_getD sl.nodes i u lvl x).2

theorem nodes_length_setLink (sl : SkipList) (p : Ptr) (lvl : Nat) (x : Option Nat) :
    (sl.setLink p lvl x).nodes.length = sl.nodes.length := by
  cases p with
  | head => rfl
  | node i => simp [SkipList.setLink]

theorem head_len_setLink (sl : SkipList) (p : Ptr) (lvl : Nat) (x : Option Nat) :
    (sl.setLink p lvl x).head.links.length = sl.head.links.length := by
  cases p with
  | head => simp [SkipList.setLink, Node.set_next]
  | node i => rfl

theorem ch_setLink (sl : SkipList) (p : Ptr) (lvl : Nat) (x : Option Nat) :
    (sl.setLink p lvl x).current_height = sl.current_height := by
  cases p <;> rfl

theorem size_setLink (sl : SkipList) (p : Ptr) (lvl : Nat) (x : Option Nat) :
    (sl.setLink p lvl x).current_size = sl.current_size := by
  cases p <;> rfl

theorem linkLen_setLink (sl : SkipList) (p q : Ptr) (lvl : Nat) (x : Option Nat) :
    (sl.setLink p lvl x).linkLen q = sl.linkLen q := by
  cases q with
  | head => exact head_len_setLink sl p lvl x
  | node i => exact heightOf_setLink sl p lvl x i

theorem linkAt_setLink_self {sl : SkipList} {p : Ptr} {lvl : Nat} {x : Option Nat}
    (h : lvl < sl.linkLen p) : (sl.setLink p lvl x).linkAt p lvl = x := by
  cases p with
  | head =>
    simp only [SkipList.setLink, SkipList.linkAt, SkipList.nodeAt, Node.set_next]
    exact getD_set_self _ _ _ _ h
  | node i =>
    by_cases hi : i < sl.nodes.length
    · simp only [SkipList.setLink, SkipList.linkAt, SkipList.nodeAt]
      rw [getD_set_self _ _ _ _ hi]
      exact getD_set_self _ _ _ _ h
    · exfalso
      have := @heightOf_out sl i (Nat.le_of_not_lt hi)
      rw [linkLen_node] at h
      omega

theorem linkAt_setLink_ne_ptr {sl : SkipList} {p q : Ptr} {lvl l : Nat} {x : Option Nat}
    (h : q ≠ p) : (sl.setLink p lvl x).linkAt q l = sl.linkAt q l := by
  cases p with
  | head =>
    cases q with
    | head => exact absurd rfl h
    | node j => rfl
  | node i =>
    cases q with
    | head => rfl
    | node j =>
      have hij : i ≠ j := fun e => h (by rw [e])
      simp only [SkipList.setLink, SkipList.linkAt, SkipList.nodeAt]
      rw [getD_set_ne _ _ _ _ _ hij]

theorem linkAt_setLink_ne_lvl {sl : SkipList} {p q : Ptr} {lvl l : Nat} {x : Option Nat}
    (h : l ≠ lvl) : (sl.setLink p lvl x).linkAt q l = sl.linkAt q l := by
  by_cases hq : q = p
  · subst hq
    cases q with
    | head =>
      simp only [SkipList.setLink, SkipList.linkAt, SkipList.nodeAt, Node.set_next]
      exact getD_set_ne _ _ _ _ _ (fun e => h e.symm)
    | node i =>
      simp only [SkipList.setLink, SkipList.linkAt, SkipList.nodeAt]
      by_cases hi : i < sl.nodes.length
      · rw [getD_set_self _ _ _ _ hi]
        exact getD_set_ne _ _ _ _ _ (fun e => h e.symm)
      · have hle : sl.nodes.length ≤ i := Nat.le_of_not_lt hi
        have hsetlen :
            (sl.nodes.set i ((sl.nodes.getD i default).set_next lvl x)).length ≤ i := by
          simpa using hle
        rw [getD_eq_of_le _ _ _ hsetlen, getD_eq_of_le _ _ _ hle]
  · exact linkAt_setLink_ne_ptr hq

/-! Unfolding equations for the fuel-indexed loops. -/

theorem felLoop_zero (sl : SkipList) (k lvl : Nat) (cur : Ptr) (prev : List Ptr) :
    felLoop sl k 0 lvl cur prev = (none, prev) := rfl

theorem felLoop_succ_none {sl : SkipList} {k lvl : Nat} {cur : Ptr} (fuel : Nat)
    (prev : List Ptr) (h : sl.linkAt cur lvl = none) :
    felLoop sl k (fuel + 1) lvl cur prev =
      if lvl = 0 then (none, prev.set lvl cur)
      else felLoop sl k fuel (lvl - 1) cur (prev.set lvl cur) := by
  simp only [felLoop, h]

theorem felLoop_succ_some {sl : SkipList} {k lvl : Nat} {cur : Ptr} {nxt : Nat} (fuel : Nat)
    (prev : List Ptr) (h : sl.linkAt cur lvl = some nxt) :
    felLoop sl k (fuel + 1) lvl cur prev =
      if k ≤ (sl.keyAt nxt).1 then
        if (sl.keyAt nxt).1 = k then (some nxt, prev.set lvl cur)
        else if lvl = 0 then (none, prev.set lvl cur)
        else felLoop sl k fuel (lvl - 1) cur (prev.set lvl cur)
      else felLoop sl k fuel lvl (Ptr.node nxt) (prev.set lvl cur) := by
  simp only [felLoop, h]

/-! Small consequences of well-formedness. -/

theorem SkipList.WF.spec_some {H : Nat} {sl : SkipList} (hwf : sl.WF H) {p : Ptr} {lvl j : Nat}
    (hok : sl.ptrOk p) (hl : lvl < sl.linkLen p) (h : sl.linkAt p lvl = some j) :
    j < sl.nodes.length ∧ sl.ptrLt p ((sl.keyAt j).1) ∧ lvl < sl.heightOf j ∧
      ∀ u, u < sl.nodes.length → sl.ptrLt p ((sl.keyAt u).1) →
        (sl.keyAt u).1 < (sl.keyAt j).1 → sl.heightOf u ≤ lvl :=
  (hwf.links p hok lvl hl).1 j h

theorem SkipList.WF.spec_none {H : Nat} {sl : SkipList} (hwf : sl.WF H) {p : Ptr} {lvl : Nat}
    (hok : sl.ptrOk p) (hl : lvl < sl.linkLen p) (h : sl.linkAt p lvl = none) :
    ∀ u, u < sl.nodes.length → sl.ptrLt p ((sl.keyAt u).1) → sl.heightOf u ≤ lvl :=
  (hwf.links p hok lvl hl).2 h

theorem SkipList.WF.no_nodes {H : Nat} {sl : SkipList} (hwf : sl.WF H)
    (hch : sl.current_height = 0) : ∀ u, u < sl.nodes.length → False := by
  intro u hu
  have h1 := hwf.height_pos u hu
  have h2 := hwf.height_le u hu
  omega

/-! The height policy. -/

theorem randomHeightGo_spec (coins : Nat → Bool) (H : Nat) :
    ∀ fuel height i, 1 ≤ height → height ≤ H → H ≤ height + fuel →
      height ≤ randomHeightGo coins H fuel height i ∧
      randomHeightGo coins H fuel height i ≤ H ∧
      (∀ j, j < randomHeightGo coins H fuel height i - height → coins (i + j) = true) ∧
      (randomHeightGo coins H fuel height i < H →
        coins (i + (randomHeightGo coins H fuel height i - height)) = false) := by
  intro fuel
  induction fuel with
  | zero =>
    intro height i h1 h2 h3
    refine ⟨Nat.le_refl _, h2, ?_, ?_⟩
    · intro j hj
      simp [randomHeightGo] at hj
    · intro hlt
      simp [randomHeightGo] at hlt
      omega
  | succ fuel ih =>
    intro height i h1 h2 h3
    by_cases hc : height < H ∧ coins i
    · have hrw : randomHeightGo coins H (fuel + 1) height i =
          randomHeightGo coins H fuel (height + 1) (i + 1) := by
        simp only [randomHeightGo, if_pos hc]
      obtain ⟨ia, ib, ic, id⟩ := ih (height + 1) (i + 1) (by omega) hc.1 (by omega)
      rw [hrw]
      refine ⟨by omega, ib, ?_, ?_⟩
      · intro j hj
        match j with
        | 0 => simpa using hc.2
        | j' + 1 =>
          have := ic j' (by omega)
          have harith : i + (j' + 1) = i + 1 + j' := by omega
          rw [harith]
          exact this
      · intro hlt
        have harith : i + (randomHeightGo coins H fuel (height + 1) (i + 1) - height) =
            i + 1 + (randomHeightGo coins H fuel (height + 1) (i + 1) - (height + 1)) := by
          omega
        rw [harith]
        exact id hlt
    · have hrw : randomHeightGo coins H (fuel + 1) height i = height := by
        simp only [randomHeightGo, if_neg hc]
      rw [hrw]
      refine ⟨Nat.le_refl _, h2, ?_, ?_⟩
      · intro j hj
        omega
      · intro hlt
        have : ¬ (coins i = true) := fun hcoin => hc ⟨hlt, hcoin⟩
        simp only [Nat.sub_self, Nat.add_zero]
        exact Bool.eq_false_iff.mpr (fun e => this e)

theorem random_height_bounds (H : Nat) (coins : Nat → Bool) (hH : 1 ≤ H) :
    1 ≤ random_height H coins ∧ random_height H coins ≤ H := by
  have := randomHeightGo_spec coins H H 1 0 (Nat.le_refl 1) hH (by omega)
  exact ⟨this.1, this.2.1⟩

/-! The search measure. -/

theorem mem_betweenSet {sl : SkipList} {p : Ptr} {k u : Nat} :
    u ∈ sl.betweenSet p k ↔
      u < sl.nodes.length ∧ sl.ptrLt p ((sl.keyAt u).1) ∧ (sl.keyAt u).1 < k := by
  rw [SkipList.betweenSet, Finset.mem_filter, Finset.mem_range]

theorem betweenSet_card_le (sl : SkipList) (p : Ptr) (k : Nat) :
    (sl.betweenSet p k).card ≤ sl.nodes.length := by
  calc (sl.betweenSet p k).card ≤ (Finset.range sl.nodes.length).card :=
        Finset.card_filter_le _ _
    _ = sl.nodes.length := Finset.card_range _

theorem betweenSet_ssubset {sl : SkipList} {cur : Ptr} {nxt k : Nat}
    (hnl : nxt < sl.nodes.length) (h1 : sl.ptrLt cur ((sl.keyAt nxt).1))
    (h2 : (sl.keyAt nxt).1 < k) :
    sl.betweenSet (Ptr.node nxt) k ⊂ sl.betweenSet cur k := by
  have hsub : sl.betweenSet (Ptr.node nxt) k ⊆ sl.betweenSet cur k := by
    intro u hu
    rw [mem_betweenSet] at hu ⊢
    exact ⟨hu.1, ptrLt_mono h1 (le_of_lt hu.2.1), hu.2.2⟩
  rw [Finset.ssubset_iff_of_subset hsub]
  refine ⟨nxt, ?_, ?_⟩
  · rw [mem_betweenSet]
    exact ⟨hnl, h1, h2⟩
  · rw [mem_betweenSet]
    intro hmem
    exact absurd hmem.2.1 (lt_irrefl _)

/-! Correctness of the `find_equal_or_less_then` loop on well-formed lists. -/

theorem felLoop_spec {Hh : Nat} {sl : SkipList} (hwf : sl.WF Hh) (k : Nat) :
    ∀ fuel lvl cur prev,
      sl.ptrOk cur → sl.ptrLt cur k → lvl < sl.linkLen cur → lvl < Hh →
      prev.length = Hh →
      lvl + 1 + (sl.betweenSet cur k).card ≤ fuel →
      (felLoop sl k fuel lvl cur prev).2.length = Hh ∧
      (∀ j, (felLoop sl k fuel lvl cur prev).1 = some j →
        j < sl.nodes.length ∧ (sl.keyAt j).1 = k) ∧
      ((felLoop sl k fuel lvl cur prev).1 = none →
        (∀ u, u < sl.nodes.length → (sl.keyAt u).1 ≠ k) ∧
        (∀ l, l ≤ lvl → sl.isPred k l ((felLoop sl k fuel lvl cur prev).2.getD l Ptr.head)) ∧
        (∀ l, lvl < l →
          (felLoop sl k fuel lvl cur prev).2.getD l Ptr.head = prev.getD l Ptr.head)) := by
  intro fuel
  induction fuel with
  | zero =>
    intro lvl cur prev _ _ _ _ _ hfuel
    omega
  | succ fuel ih =>
    intro lvl cur prev hok hlt hlen hlvlH hprevlen hfuel
    have hprev1len : (prev.set lvl cur).length = Hh := by
      rw [List.length_set]
      exact hprevlen
    have hget_self : (prev.set lvl cur).getD lvl Ptr.head = cur :=
      getD_set_self _ _ _ _ (by rw [hprevlen]; exact hlvlH)
    have hget_ne : ∀ l, l ≠ lvl → (prev.set lvl cur).getD l Ptr.head = prev.getD l Ptr.head :=
      fun l hl => getD_set_ne _ _ _ _ _ (fun e => hl e.symm)
    cases hlink : sl.linkAt cur lvl with
    | none =>
      rw [felLoop_succ_none fuel prev hlink]
      have hnone := hwf.spec_none hok hlen hlink
      by_cases hlvl0 : lvl = 0
      · subst hlvl0
        rw [if_pos rfl]
        refine ⟨hprev1len, ?_, ?_⟩
        · intro j hj
          exact absurd hj (by simp)
        · intro _
          refine ⟨?_, ?_, ?_⟩
          · intro u hu hk
            have hcu : sl.ptrLt cur ((sl.keyAt u).1) := by rw [hk]; exact hlt
            have h1 := hnone u hu hcu
            have h2 := hwf.height_pos u hu
            omega
          · intro l hl
            have hl0 : l = 0 := by omega
            subst hl0
            show sl.isPred k 0 ((prev.set 0 cur).getD 0 Ptr.head)
            rw [hget_self]
            exact ⟨hok, hlt, hlen, fun u hu hcu _ => hnone u hu hcu⟩
          · intro l hl
            exact hget_ne l (by omega)
      · rw [if_neg hlvl0]
        obtain ⟨ha, hb, hc⟩ :=
          ih (lvl - 1) cur (prev.set lvl cur) hok hlt (by omega) (by omega) hprev1len (by omega)
        refine ⟨ha, hb, ?_⟩
        intro hres
        obtain ⟨habs, hpred, hunch⟩ := hc hres
        refine ⟨habs, ?_, ?_⟩
        · intro l hl
          by_cases hll : l ≤ lvl - 1
          · exact hpred l hll
          · have hleq : l = lvl := by omega
            subst hleq
            rw [hunch l (by omega), hget_self]
            exact ⟨hok, hlt, hlen, fun u hu hcu _ => hnone u hu hcu⟩
        · intro l hl
          rw [hunch l (by omega)]
          exact hget_ne l (by omega)
    | some nxt =>
      rw [felLoop_succ_some fuel prev hlink]
      obtain ⟨hnl, hnlt, hnh, hskip⟩ := hwf.spec_some hok hlen hlink
      by_cases hge : k ≤ (sl.keyAt nxt).1
      · rw [if_pos hge]
        by_cases heq : (sl.keyAt nxt).1 = k
        · rw [if_pos heq]
          refine ⟨hprev1len, ?_, ?_⟩
          · intro j hj
            have hnj : nxt = j := by
              have : some nxt = some j := hj
              exact Option.some.inj this
            subst hnj
            exact ⟨hnl, heq⟩
          · intro h
            exact absurd h (by simp)
        · rw [if_neg heq]
          have hklt : k < (sl.keyAt nxt).1 := lt_of_le_of_ne hge (fun e => heq e.symm)
          by_cases hlvl0 : lvl = 0
          · subst hlvl0
            rw [if_pos rfl]
            refine ⟨hprev1len, ?_, ?_⟩
            · intro j hj
              exact absurd hj (by simp)
            · intro _
              refine ⟨?_, ?_, ?_⟩
              · intro u hu hk
                have hcu : sl.ptrLt cur ((sl.keyAt u).1) := by rw [hk]; exact hlt
                have hlt2 : (sl.keyAt u).1 < (sl.keyAt nxt).1 := by rw [hk]; exact hklt
                have h1 := hskip u hu hcu hlt2
                have h2 := hwf.height_pos u hu
                omega
              · intro l hl
                have hl0 : l = 0 := by omega
                subst hl0
                show sl.isPred k 0 ((prev.set 0 cur).getD 0 Ptr.head)
                rw [hget_self]
                exact ⟨hok, hlt, hlen,
                  fun u hu hcu hku => hskip u hu hcu (lt_trans hku hklt)⟩
              · intro l hl
                exact hget_ne l (by omega)
          · rw [if_neg hlvl0]
            obtain ⟨ha, hb, hc⟩ :=
              ih (lvl - 1) cur (prev.set lvl cur) hok hlt (by omega) (by omega) hprev1len
                (by omega)
            refine ⟨ha, hb, ?_⟩
            intro hres
            obtain ⟨habs, hpred, hunch⟩ := hc hres
            refine ⟨habs, ?_, ?_⟩
            · intro l hl
              by_cases hll : l ≤ lvl - 1
              · exact hpred l hll
              · have hleq : l = lvl := by omega
                subst hleq
                rw [hunch l (by omega), hget_self]
                exact ⟨hok, hlt, hlen,
                  fun u hu hcu hku => hskip u hu hcu (lt_trans hku hklt)⟩
            · intro l hl
              rw [hunch l (by omega)]
              exact hget_ne l (by omega)
      · rw [if_neg hge]
        have hnklt : (sl.keyAt nxt).1 < k := Nat.lt_of_not_le hge
        have hcard := Finset.card_lt_card (betweenSet_ssubset hnl hnlt hnklt)
        obtain ⟨ha, hb, hc⟩ :=
          ih lvl (Ptr.node nxt) (prev.set lvl cur) hnl hnklt
            (by rw [linkLen_node]; exact hnh) hlvlH hprev1len (by omega)
        refine ⟨ha, hb, ?_⟩
        intro hres
        obtain ⟨habs, hpred, hunch⟩ := hc hres
        refine ⟨habs, hpred, ?_⟩
        intro l hl
        rw [hunch l hl]
        exact hget_ne l (by omega)

theorem head_next_eq (sl : SkipList) (lvl : Nat) : sl.head_next lvl = sl.linkAt Ptr.head lvl :=
  rfl

/-- Top-level specification of `find_equal_or_less_then` on well-formed lists:
a `some` answer is the node carrying the target key; a `none` answer means the
key is absent and the returned trace holds the true predecessor of the target
at every level below `H`. -/
theorem find_spec {Hh : Nat} {sl : SkipList} (hwf : sl.WF Hh) (key : Key) :
    (find_equal_or_less_then Hh sl key).2.length = Hh ∧
    (∀ j, (find_equal_or_less_then Hh sl key).1 = some j →
      j < sl.nodes.length ∧ (sl.keyAt j).1 = key.1) ∧
    ((find_equal_or_less_then Hh sl key).1 = none →
      (∀ u, u < sl.nodes.length → (sl.keyAt u).1 ≠ key.1) ∧
      (∀ l, l < Hh →
        sl.isPred key.1 l ((find_equal_or_less_then Hh sl key).2.getD l Ptr.head))) := by
  by_cases hch : sl.current_height = 0
  · have heq : find_equal_or_less_then Hh sl key = (none, List.replicate Hh Ptr.head) := by
      unfold find_equal_or_less_then
      rw [if_pos hch]
    rw [heq]
    refine ⟨by simp, ?_, ?_⟩
    · intro j hj
      exact absurd hj (by simp)
    · intro _
      refine ⟨?_, ?_⟩
      · intro u hu
        exact absurd hu (fun h => hwf.no_nodes hch u h)
      · intro l hl
        show sl.isPred key.1 l ((List.replicate Hh Ptr.head).getD l Ptr.head)
        rw [getD_replicate_self]
        refine ⟨trivial, trivial, ?_, ?_⟩
        · rw [linkLen_head, hwf.head_len]
          exact hl
        · intro u hu
          exact absurd hu (fun h => hwf.no_nodes hch u h)
  · have hch1 : 1 ≤ sl.current_height := Nat.one_le_iff_ne_zero.mpr hch
    have hH1 : 1 ≤ Hh := le_trans hch1 hwf.ch_le
    have h0len : (0 : Nat) < sl.linkLen Ptr.head := by
      rw [linkLen_head, hwf.head_len]
      omega
    cases hhn : sl.head_next 0 with
    | none =>
      have heq : find_equal_or_less_then Hh sl key = (none, List.replicate Hh Ptr.head) := by
        unfold find_equal_or_less_then
        rw [if_neg hch, hhn]
      have hhn2 : sl.linkAt Ptr.head 0 = none := hhn
      have hnone := @SkipList.WF.spec_none Hh sl hwf Ptr.head 0 trivial h0len hhn2
      have hnonodes : ∀ u, u < sl.nodes.length → False := by
        intro u hu
        have h1 := hnone u hu trivial
        have h2 := hwf.height_pos u hu
        omega
      rw [heq]
      refine ⟨by simp, ?_, ?_⟩
      · intro j hj
        exact absurd hj (by simp)
      · intro _
        refine ⟨?_, ?_⟩
        · intro u hu
          exact absurd hu (fun h => hnonodes u h)
        · intro l hl
          show sl.isPred key.1 l ((List.replicate Hh Ptr.head).getD l Ptr.head)
          rw [getD_replicate_self]
          refine ⟨trivial, trivial, ?_, ?_⟩
          · rw [linkLen_head, hwf.head_len]
            exact hl
          · intro u hu
            exact absurd hu (fun h => hnonodes u h)
    | some first =>
      have hhn2 : sl.linkAt Ptr.head 0 = some first := hhn
      obtain ⟨hfl, _, hfh, hfskip⟩ :=
        @SkipList.WF.spec_some Hh sl hwf Ptr.head 0 first trivial h0len hhn2
      have hge_first : ∀ u, u < sl.nodes.length → (sl.keyAt first).1 ≤ (sl.keyAt u).1 := by
        intro u hu
        by_contra hltu
        have h1 := hfskip u hu trivial (Nat.lt_of_not_le hltu)
        have h2 := hwf.height_pos u hu
        omega
      by_cases hsmall : key.1 < (sl.keyAt first).1
      · have heq : find_equal_or_less_then Hh sl key = (none, List.replicate Hh Ptr.head) := by
          unfold find_equal_or_less_then
          simp only [if_neg hch, hhn, if_pos hsmall]
        rw [heq]
        refine ⟨by simp, ?_, ?_⟩
        · intro j hj
          exact absurd hj (by simp)
        · intro _
          refine ⟨?_, ?_⟩
          · intro u hu hk
            have := hge_first u hu
            omega
          · intro l hl
            show sl.isPred key.1 l ((List.replicate Hh Ptr.head).getD l Ptr.head)
            rw [getD_replicate_self]
            refine ⟨trivial, trivial, ?_, ?_⟩
            · rw [linkLen_head, hwf.head_len]
              exact hl
            · intro u hu _ hku
              have := hge_first u hu
              omega
      · have heq : find_equal_or_less_then Hh sl key =
            felLoop sl key.1 (sl.nodes.length + sl.current_height + 1)
              (sl.current_height - 1) Ptr.head (List.replicate Hh Ptr.head) := by
          unfold find_equal_or_less_then
          simp only [if_neg hch, hhn, if_neg hsmall]
        rw [heq]
        have hcard := betweenSet_card_le sl Ptr.head key.1
        obtain ⟨ha, hb, hc⟩ :=
          felLoop_spec hwf key.1 (sl.nodes.length + sl.current_height + 1)
            (sl.current_height - 1) Ptr.head (List.replicate Hh Ptr.head) trivial trivial
            (by rw [linkLen_head, hwf.head_len]; have := hwf.ch_le; omega)
            (by have := hwf.ch_le; omega) (by simp) (by omega)
        refine ⟨ha, hb, ?_⟩
        intro hres
        obtain ⟨habs, hpred, hunch⟩ := hc hres
        refine ⟨habs, ?_⟩
        intro l hl
        by_cases hlc : l ≤ sl.current_height - 1
        · exact hpred l hlc
        · rw [hunch l (by omega), getD_replicate_self]
          refine ⟨trivial, trivial, ?_, ?_⟩
          · rw [linkLen_head, hwf.head_len]
            exact hl
          · intro u hu _ _
            have := hwf.height_le u hu
            omega

/-- `contains` answers exactly key membership on well-formed lists. -/
theorem contains_iff {Hh : Nat} {sl : SkipList} (hwf : sl.WF Hh) (key : Key) :
    sl.contains Hh key = true ↔ sl.hasKey key.1 := by
  unfold SkipList.contains
  obtain ⟨_, hsome, hnone⟩ := find_spec hwf key
  cases hres : (find_equal_or_less_then Hh sl key).1 with
  | none =>
    obtain ⟨habs, _⟩ := hnone hres
    exact iff_of_false (by simp) (fun ⟨i, hi, hk⟩ => habs i hi hk)
  | some j =>
    obtain ⟨hj, hk⟩ := hsome j hres
    exact iff_of_true (by simp) ⟨j, hj, hk⟩

/-- Reduction of `insert` when the key is found. -/
theorem insert_eq_found {Hh : Nat} {sl : SkipList} {coins : Nat → Bool} {key : Key} {j : Nat}
    (h : (find_equal_or_less_then Hh sl key).1 = some j) :
    sl.insert Hh coins key =
      { sl with nodes := sl.nodes.set j { sl.nodes.getD j default with key := key } } := by
  unfold SkipList.insert
  simp only [h]

/-- Reduction of `insert` when the key is absent. -/
theorem insert_eq_none {Hh : Nat} {sl : SkipList} {coins : Nat → Bool} {key : Key}
    (h : (find_equal_or_less_then Hh sl key).1 = none) :
    sl.insert Hh coins key =
      { spliceLoop sl.nodes.length (find_equal_or_less_then Hh sl key).2 0
          (sl.pushNode key (random_height Hh coins)) (random_height Hh coins) with
        current_height := max sl.current_height (random_height Hh coins)
        current_size := sl.current_size + 1 } := by
  unfold SkipList.insert SkipList.pushNode
  simp only [h]

theorem spliceLoop_succ (n : Nat) (prevA : List Ptr) (i : Nat) (sl : SkipList)
    (remaining : Nat) :
    spliceLoop n prevA i sl (remaining + 1) =
      spliceLoop n prevA (i + 1)
        ((sl.setLink (Ptr.node n) i (sl.linkAt (prevA.getD i Ptr.head) i)).setLink
          (prevA.getD i Ptr.head) i (some n)) remaining := rfl

/-- Effect of the splice loop: levels `i ≤ l < i + remaining` of the new node
receive the old forward link of the recorded predecessor, the predecessors
now point at the new node, and every other link slot is untouched. -/
theorem spliceLoop_char (n : Nat) (prevA : List Ptr) :
    ∀ remaining i sl,
      n < sl.nodes.length →
      (∀ l, i ≤ l → l < i + remaining → l < sl.heightOf n) →
      (∀ l, i ≤ l → l < i + remaining →
        prevA.getD l Ptr.head ≠ Ptr.node n ∧ l < sl.linkLen (prevA.getD l Ptr.head)) →
      (spliceLoop n prevA i sl remaining).nodes.length = sl.nodes.length ∧
      (spliceLoop n prevA i sl remaining).current_height = sl.current_height ∧
      (spliceLoop n prevA i sl remaining).current_size = sl.current_size ∧
      (∀ u, (spliceLoop n prevA i sl remaining).keyAt u = sl.keyAt u) ∧
      (∀ u, (spliceLoop n prevA i sl remaining).heightOf u = sl.heightOf u) ∧
      (spliceLoop n prevA i sl remaining).head.links.length = sl.head.links.length ∧
      (∀ l, i ≤ l → l < i + remaining →
        (spliceLoop n prevA i sl remaining).linkAt (Ptr.node n) l =
          sl.linkAt (prevA.getD l Ptr.head) l) ∧
      (∀ l, i ≤ l → l < i + remaining →
        (spliceLoop n prevA i sl remaining).linkAt (prevA.getD l Ptr.head) l = some n) ∧
      (∀ q l, (q = Ptr.node n → l < i ∨ i + remaining ≤ l) →
        (i ≤ l → l < i + remaining → q ≠ prevA.getD l Ptr.head) →
        (spliceLoop n prevA i sl remaining).linkAt q l = sl.linkAt q l) := by
  intro remaining
  induction remaining with
  | zero =>
    intro i sl _ _ _
    exact ⟨rfl, rfl, rfl, fun u => rfl, fun u => rfl, rfl,
      fun l hl1 hl2 => absurd hl2 (by omega),
      fun l hl1 hl2 => absurd hl2 (by omega),
      fun q l _ _ => rfl⟩
  | succ remaining ih =>
    intro i sl hn hhgt hprev
    have hp := hprev i (Nat.le_refl i) (by omega)
    have hpn : prevA.getD i Ptr.head ≠ Ptr.node n := hp.1
    have hplen : i < sl.linkLen (prevA.getD i Ptr.head) := hp.2
    have hnlen : i < sl.heightOf n := hhgt i (Nat.le_refl i) (by omega)
    set p := prevA.getD i Ptr.head with hpdef
    set sl1 := sl.setLink (Ptr.node n) i (sl.linkAt p i) with hsl1
    set sl2 := sl1.setLink p i (some n) with hsl2
    -- basic facts about sl2 relative to sl
    have hlen2 : sl2.nodes.length = sl.nodes.length := by
      rw [hsl2, nodes_length_setLink, hsl1, nodes_length_setLink]
    have hkey2 : ∀ u, sl2.keyAt u = sl.keyAt u := by
      intro u
      rw [hsl2, keyAt_setLink, hsl1, keyAt_setLink]
    have hhgt2 : ∀ u, sl2.heightOf u = sl.heightOf u := by
      intro u
      rw [hsl2, heightOf_setLink, hsl1, heightOf_setLink]
    have hhead2 : sl2.head.links.length = sl.head.links.length := by
      rw [hsl2, head_len_setLink, hsl1, head_len_setLink]
    have hch2 : sl2.current_height = sl.current_height := by
      rw [hsl2, ch_setLink, hsl1, ch_setLink]
    have hsz2 : sl2.current_size = sl.current_size := by
      rw [hsl2, size_setLink, hsl1, size_setLink]
    have hll2 : ∀ q, sl2.linkLen q = sl.linkLen q := by
      intro q
      rw [hsl2, linkLen_setLink, hsl1, linkLen_setLink]
    -- link slots of sl2
    have hsl2_newnode : sl2.linkAt (Ptr.node n) i = sl.linkAt p i := by
      rw [hsl2, linkAt_setLink_ne_ptr (fun e => hpn e.symm), hsl1]
      exact linkAt_setLink_self (by rw [linkLen_node]; exact hnlen)
    have hsl2_pred : sl2.linkAt p i = some n := by
      rw [hsl2]
      exact linkAt_setLink_self (by rw [linkLen_setLink]; exact hplen)
    have hsl2_other : ∀ q l, (q = Ptr.node n → l ≠ i) → (l = i → q ≠ p) →
        sl2.linkAt q l = sl.linkAt q l := by
      intro q l hq1 hq2
      have step2 : sl2.linkAt q l = sl1.linkAt q l := by
        by_cases hli : l = i
        · exact hsl2 ▸ linkAt_setLink_ne_ptr (hq2 hli)
        · exact hsl2 ▸ linkAt_setLink_ne_lvl hli
      have step1 : sl1.linkAt q l = sl.linkAt q l := by
        by_cases hqn : q = Ptr.node n
        · exact hsl1 ▸ linkAt_setLink_ne_lvl (hq1 hqn)
        · exact hsl1 ▸ linkAt_setLink_ne_ptr hqn
      rw [step2, step1]
    -- apply the induction hypothesis to sl2
    obtain ⟨ih1, ih2, ih3, ih4, ih5, ih6, ih7, ih8, ih9⟩ :=
      ih (i + 1) sl2 (by rw [hlen2]; exact hn)
        (by
          intro l hl1 hl2
          rw [hhgt2]
          exact hhgt l (by omega) (by omega))
        (by
          intro l hl1 hl2
          refine ⟨(hprev l (by omega) (by omega)).1, ?_⟩
          rw [hll2]
          exact (hprev l (by omega) (by omega)).2)
    rw [spliceLoop_succ, ← hpdef, ← hsl1, ← hsl2]
    refine ⟨by rw [ih1, hlen2], by rw [ih2, hch2], by rw [ih3, hsz2],
      fun u => by rw [ih4 u, hkey2], fun u => by rw [ih5 u, hhgt2], by rw [ih6, hhead2],
      ?_, ?_, ?_⟩
    · intro l hl1 hl2
      by_cases hli : l = i
      · rw [hli, ← hpdef,
          ih9 (Ptr.node n) i (fun _ => Or.inl (by omega)) (fun h1 _ => absurd h1 (by omega)),
          hsl2_newnode]
      · rw [ih7 l (by omega) (by omega)]
        exact hsl2_other (prevA.getD l Ptr.head) l
          (fun e => absurd e (hprev l (by omega) (by omega)).1) (fun e => absurd e hli)
    · intro l hl1 hl2
      by_cases hli : l = i
      · rw [hli, ← hpdef,
          ih9 p i (fun e => absurd e hpn) (fun h1 _ => absurd h1 (by omega))]
        exact hsl2_pred
      · exact ih8 l (by omega) (by omega)
    · intro q l hq1 hq2
      have hstep : (spliceLoop n prevA (i + 1) sl2 remaining).linkAt q l = sl2.linkAt q l := by
        apply ih9 q l
        · intro hqn
          rcases hq1 hqn with h | h
          · exact Or.inl (by omega)
          · exact Or.inr (by omega)
        · intro h1 h2
          exact hq2 (by omega) (by omega)
      rw [hstep]
      apply hsl2_other q l
      · intro hqn hli
        rcases hq1 hqn with h | h <;> omega
      · intro hli
        have h := hq2 (by omega) (by omega)
        rw [hli] at h
        exact h

/-! Transfer of well-formedness across states with identical observable shape. -/

theorem ptrLt_congr {sl sl' : SkipList} (hkey : ∀ u, (sl'.keyAt u).1 = (sl.keyAt u).1)
    (p : Ptr) (x : Nat) : sl'.ptrLt p x ↔ sl.ptrLt p x := by
  cases p with
  | head => exact Iff.rfl
  | node i => rw [ptrLt_node, ptrLt_node, hkey i]

theorem WF_congr {Hh : Nat} {sl sl' : SkipList}
    (hlen : sl'.nodes.length = sl.nodes.length)
    (hkey : ∀ u, (sl'.keyAt u).1 = (sl.keyAt u).1)
    (hhgt : ∀ u, sl'.heightOf u = sl.heightOf u)
    (hlink : ∀ q lvl, sl'.linkAt q lvl = sl.linkAt q lvl)
    (hhead : sl'.head.links.length = sl.head.links.length)
    (hch : sl'.current_height = sl.current_height)
    (hwf : sl.WF Hh) : sl'.WF Hh := by
  have hll : ∀ q, sl'.linkLen q = sl.linkLen q := by
    intro q
    cases q with
    | head => exact hhead
    | node i => exact hhgt i
  have hok : ∀ q, sl'.ptrOk q ↔ sl.ptrOk q := by
    intro q
    cases q with
    | head => exact Iff.rfl
    | node i => rw [show sl'.ptrOk (Ptr.node i) = (i < sl'.nodes.length) from rfl,
        show sl.ptrOk (Ptr.node i) = (i < sl.nodes.length) from rfl, hlen]
  refine ⟨by rw [hhead, hwf.head_len], ?_, ?_, ?_, ?_, ?_⟩
  · intro i hi
    rw [hhgt]
    exact hwf.height_pos i (by omega)
  · intro i hi
    rw [hhgt, hch]
    exact hwf.height_le i (by omega)
  · rw [hch]
    exact hwf.ch_le
  · intro i hi j hj hij
    rw [hkey i, hkey j]
    exact hwf.distinct i (by omega) j (by omega) hij
  · intro p hp lvl hlvl
    rw [hll] at hlvl
    have hp2 : sl.ptrOk p := (hok p).mp hp
    obtain ⟨hsome, hnone⟩ := hwf.links p hp2 lvl hlvl
    constructor
    · intro j hj
      rw [hlink] at hj
      obtain ⟨h1, h2, h3, h4⟩ := hsome j hj
      refine ⟨by omega, ?_, by rw [hhgt]; exact h3, ?_⟩
      · rw [ptrLt_congr hkey, hkey]
        exact h2
      · intro u hu hpu hukey
        rw [hhgt]
        rw [ptrLt_congr hkey, hkey] at hpu
        rw [hkey, hkey] at hukey
        exact h4 u (by omega) hpu hukey
    · intro hn u hu hpu
      rw [hlink] at hn
      rw [ptrLt_congr hkey, hkey] at hpu
      rw [hhgt]
      exact hnone hn u (by omega) hpu

/-- If a link slot of an old node spans the key about to be inserted (its
target, if any, lies strictly beyond the new key), then the slot's level is at
least the new node's height — i.e. no untouched slot skips over the spliced
node at the levels where it was spliced in. -/
theorem new_node_tall_le {Hh : Nat} {sl : SkipList} {key : Key} (hwf : sl.WF Hh)
    {prevA : List Ptr} {h : Nat}
    (hpred : ∀ l, l < Hh → sl.isPred key.1 l (prevA.getD l Ptr.head))
    (hh2 : h ≤ Hh) {p : Ptr} {lvl : Nat} (hok : sl.ptrOk p) (hlen : lvl < sl.linkLen p)
    (hplt : sl.ptrLt p key.1)
    (hnotpred : ¬ (lvl < h ∧ p = prevA.getD lvl Ptr.head))
    (hspan : (∃ j, sl.linkAt p lvl = some j ∧ j < sl.nodes.length ∧
        key.1 < (sl.keyAt j).1) ∨ sl.linkAt p lvl = none) :
    h ≤ lvl := by
  by_contra hcon
  have hlvlh : lvl < h := Nat.lt_of_not_le hcon
  have hlvlH : lvl < Hh := lt_of_lt_of_le hlvlh hh2
  obtain ⟨hpok, hplt2, hplen, hpbet⟩ := hpred lvl hlvlH
  have hne : p ≠ prevA.getD lvl Ptr.head := fun e => hnotpred ⟨hlvlh, e⟩
  cases p with
  | head =>
    cases hpl : prevA.getD lvl Ptr.head with
    | head => exact hne hpl.symm
    | node pi =>
      rw [hpl] at hpok hplt2 hplen
      have hpiN : pi < sl.nodes.length := hpok
      have hpik : (sl.keyAt pi).1 < key.1 := hplt2
      have hpih : lvl < sl.heightOf pi := by rw [linkLen_node] at hplen; exact hplen
      rcases hspan with ⟨j, hj, hjN, hjk⟩ | hnone
      · obtain ⟨_, _, _, hskip⟩ := hwf.spec_some hok hlen hj
        have := hskip pi hpiN trivial (lt_trans hpik hjk)
        omega
      · have := hwf.spec_none hok hlen hnone pi hpiN trivial
        omega
  | node qi =>
    have hqiN : qi < sl.nodes.length := hok
    have hqik : (sl.keyAt qi).1 < key.1 := hplt
    have hqih : lvl < sl.heightOf qi := by rw [linkLen_node] at hlen; exact hlen
    cases hpl : prevA.getD lvl Ptr.head with
    | head =>
      rw [hpl] at hpbet
      have := hpbet qi hqiN trivial hqik
      omega
    | node pi =>
      rw [hpl] at hpok hplt2 hplen hpbet hne
      have hpiN : pi < sl.nodes.length := hpok
      have hpik : (sl.keyAt pi).1 < key.1 := hplt2
      have hpih : lvl < sl.heightOf pi := by rw [linkLen_node] at hplen; exact hplen
      rcases Nat.lt_trichotomy ((sl.keyAt qi).1) ((sl.keyAt pi).1) with hlt | heq | hgt
      · rcases hspan with ⟨j, hj, hjN, hjk⟩ | hnone
        · obtain ⟨_, _, _, hskip⟩ := hwf.spec_some hok hlen hj
          have := hskip pi hpiN hlt (lt_trans hpik hjk)
          omega
        · have := hwf.spec_none hok hlen hnone pi hpiN hlt
          omega
      · have hqp : qi = pi := by
          by_contra hne2
          exact hwf.distinct qi hqiN pi hpiN hne2 heq
        exact hne (by rw [hqp])
      · have := hpbet qi hqiN hgt hqik
        omega

/-! Facts about the freshly extended arena. -/

theorem pushNode_len (sl : SkipList) (key : Key) (ht : Nat) :
    (sl.pushNode key ht).nodes.length = sl.nodes.length + 1 := by
  simp [SkipList.pushNode]

theorem pushNode_keyAt_old (sl : SkipList) (key : Key) (ht : Nat) {u : Nat}
    (hu : u < sl.nodes.length) : (sl.pushNode key ht).keyAt u = sl.keyAt u := by
  unfold SkipList.pushNode SkipList.keyAt
  rw [getD_append_left _ _ _ _ hu]

theorem pushNode_keyAt_new (sl : SkipList) (key : Key) (ht : Nat) :
    (sl.pushNode key ht).keyAt sl.nodes.length = key := by
  unfold SkipList.pushNode SkipList.keyAt
  rw [getD_append_last]

theorem pushNode_heightOf_old (sl : SkipList) (key : Key) (ht : Nat) {u : Nat}
    (hu : u < sl.nodes.length) : (sl.pushNode key ht).heightOf u = sl.heightOf u := by
  unfold SkipList.pushNode SkipList.heightOf
  rw [getD_append_left _ _ _ _ hu]

theorem pushNode_heightOf_new (sl : SkipList) (key : Key) (ht : Nat) :
    (sl.pushNode key ht).heightOf sl.nodes.length = ht := by
  unfold SkipList.pushNode SkipList.heightOf
  rw [getD_append_last]
  exact List.length_replicate ht none

theorem pushNode_linkAt_old (sl : SkipList) (key : Key) (ht : Nat) {u : Nat} (lvl : Nat)
    (hu : u < sl.nodes.length) :
    (sl.pushNode key ht).linkAt (Ptr.node u) lvl = sl.linkAt (Ptr.node u) lvl := by
  show ((sl.nodes ++ [({ key := key, links := List.replicate ht none } : Node)]).getD
      u default).links.getD lvl none = (sl.nodes.getD u default).links.getD lvl none
  rw [getD_append_left _ _ _ _ hu]

theorem pushNode_linkAt_new (sl : SkipList) (key : Key) (ht : Nat) (lvl : Nat) :
    (sl.pushNode key ht).linkAt (Ptr.node sl.nodes.length) lvl = none := by
  show ((sl.nodes ++ [({ key := key, links := List.replicate ht none } : Node)]).getD
      sl.nodes.length default).links.getD lvl none = none
  rw [getD_append_last]
  exact getD_replicate_self ht lvl none

/-- The heart of the insert proof: splicing a fresh node of height `ht` after
the predecessor trace of an absent key preserves well-formedness, appends
exactly that key, and keeps every old key in place. -/
theorem splice_preserves_WF {Hh : Nat} {sl nsl : SkipList} {key : Key} {prevA : List Ptr}
    {ht : Nat} (hwf : sl.WF Hh) (hh1 : 1 ≤ ht) (hh2 : ht ≤ Hh)
    (habs : ∀ u, u < sl.nodes.length → (sl.keyAt u).1 ≠ key.1)
    (hpred : ∀ l, l < Hh → sl.isPred key.1 l (prevA.getD l Ptr.head))
    (hnsl : nsl = { spliceLoop sl.nodes.length prevA 0 (sl.pushNode key ht) ht with
        current_height := max sl.current_height ht
        current_size := sl.current_size + 1 }) :
    nsl.WF Hh ∧ nsl.nodes.length = sl.nodes.length + 1 ∧
    (∀ u, u < sl.nodes.length → nsl.keyAt u = sl.keyAt u) ∧
    nsl.keyAt sl.nodes.length = key := by
  obtain ⟨S, hS⟩ : ∃ S, S = spliceLoop sl.nodes.length prevA 0 (sl.pushNode key ht) ht :=
    ⟨_, rfl⟩
  rw [← hS] at hnsl
  -- predecessor-trace components, in the old state
  have hpOk : ∀ l, l < ht → sl.ptrOk (prevA.getD l Ptr.head) := fun l hl =>
    (hpred l (lt_of_lt_of_le hl hh2)).1
  have hpLt : ∀ l, l < ht → sl.ptrLt (prevA.getD l Ptr.head) key.1 := fun l hl =>
    (hpred l (lt_of_lt_of_le hl hh2)).2.1
  have hpLen : ∀ l, l < ht → l < sl.linkLen (prevA.getD l Ptr.head) := fun l hl =>
    (hpred l (lt_of_lt_of_le hl hh2)).2.2.1
  have hpBet : ∀ l, l < ht → ∀ u, u < sl.nodes.length →
      sl.ptrLt (prevA.getD l Ptr.head) ((sl.keyAt u).1) → (sl.keyAt u).1 < key.1 →
      sl.heightOf u ≤ l := fun l hl =>
    (hpred l (lt_of_lt_of_le hl hh2)).2.2.2
  -- the splice characterisation
  obtain ⟨c1, _, _, c4, c5, c6, c7, c8, c9⟩ :=
    spliceLoop_char sl.nodes.length prevA ht 0 (sl.pushNode key ht)
      (by rw [pushNode_len]; omega)
      (by
        intro l hl1 hl2
        rw [pushNode_heightOf_new]
        omega)
      (by
        intro l hl1 hl2
        have hl : l < ht := by omega
        constructor
        · have hok := hpOk l hl
          cases hc : prevA.getD l Ptr.head with
          | head => exact fun e => Ptr.noConfusion e
          | node i =>
            rw [hc] at hok
            have hok2 : i < sl.nodes.length := hok
            intro e
            injection e with e2
            omega
        · cases hc : prevA.getD l Ptr.head with
          | head =>
            have h := hpLen l hl
            rw [hc] at h
            exact h
          | node i =>
            have hok := hpOk l hl
            have h := hpLen l hl
            rw [hc] at hok h
            rw [linkLen_node] at h
            rw [linkLen_node, pushNode_heightOf_old _ _ _ hok]
            exact h)
  rw [← hS] at c1 c4 c5 c6 c7 c8 c9
  -- observables of nsl in terms of S
  have hkeyS : ∀ u, nsl.keyAt u = S.keyAt u := by
    intro u
    rw [hnsl]
    rfl
  have hhgtS : ∀ u, nsl.heightOf u = S.heightOf u := by
    intro u
    rw [hnsl]
    rfl
  have hlinkS : ∀ q l, nsl.linkAt q l = S.linkAt q l := by
    intro q l
    rw [hnsl]
    cases q <;> rfl
  have hlinkLenS : ∀ q, nsl.linkLen q = S.linkLen q := by
    intro q
    rw [hnsl]
    cases q <;> rfl
  have hchn : nsl.current_height = max sl.current_height ht := by rw [hnsl]
  have nlen : nsl.nodes.length = sl.nodes.length + 1 := by
    rw [hnsl]
    show S.nodes.length = sl.nodes.length + 1
    rw [c1, pushNode_len]
  have nheadlen : nsl.head.links.length = Hh := by
    rw [hnsl]
    show S.head.links.length = Hh
    rw [c6]
    exact hwf.head_len
  have nkey_old : ∀ u, u < sl.nodes.length → nsl.keyAt u = sl.keyAt u := by
    intro u hu
    rw [hkeyS, c4, pushNode_keyAt_old _ _ _ hu]
  have nkey_new : nsl.keyAt sl.nodes.length = key := by
    rw [hkeyS, c4, pushNode_keyAt_new]
  have nhgt_old : ∀ u, u < sl.nodes.length → nsl.heightOf u = sl.heightOf u := by
    intro u hu
    rw [hhgtS, c5, pushNode_heightOf_old _ _ _ hu]
  have nhgt_new : nsl.heightOf sl.nodes.length = ht := by
    rw [hhgtS, c5, pushNode_heightOf_new]
  have nptrLt : ∀ p x, (p = Ptr.head ∨ ∃ i, p = Ptr.node i ∧ i < sl.nodes.length) →
      (nsl.ptrLt p x ↔ sl.ptrLt p x) := by
    intro p x hp
    rcases hp with h | ⟨i, hpi, hiN⟩
    · rw [h]
      exact Iff.rfl
    · rw [hpi, ptrLt_node, ptrLt_node, nkey_old i hiN]
  have nlink_new : ∀ lvl, lvl < ht →
      nsl.linkAt (Ptr.node sl.nodes.length) lvl =
        sl.linkAt (prevA.getD lvl Ptr.head) lvl := by
    intro lvl hl
    rw [hlinkS, c7 lvl (by omega) (by omega)]
    cases hc : prevA.getD lvl Ptr.head with
    | head => rfl
    | node i =>
      have hok := hpOk lvl hl
      rw [hc] at hok
      exact pushNode_linkAt_old _ _ _ _ hok
  have nlink_pred : ∀ lvl, lvl < ht →
      nsl.linkAt (prevA.getD lvl Ptr.head) lvl = some sl.nodes.length := by
    intro lvl hl
    rw [hlinkS]
    exact c8 lvl (by omega) (by omega)
  have nlink_other : ∀ q lvl, (q = Ptr.node sl.nodes.length → ht ≤ lvl) →
      (lvl < ht → q ≠ prevA.getD lvl Ptr.head) →
      (q = Ptr.head ∨ ∃ i, q = Ptr.node i ∧ i < sl.nodes.length) →
      nsl.linkAt q lvl = sl.linkAt q lvl := by
    intro q lvl hq1 hq2 hq3
    rw [hlinkS, c9 q lvl (fun e => Or.inr (by have := hq1 e; omega)) (fun _ h2 => hq2 (by omega))]
    rcases hq3 with h | ⟨i, hqi, hiN⟩
    · rw [h]
      rfl
    · rw [hqi]
      exact pushNode_linkAt_old _ _ _ _ hiN
  -- the old-pointer link specification
  have old_case : ∀ p, (p = Ptr.head ∨ ∃ i, p = Ptr.node i ∧ i < sl.nodes.length) →
      sl.ptrOk p → ∀ lvl, lvl < sl.linkLen p → nsl.linkSpec p lvl := by
    intro p hshape hok lvl hlen
    have hq1 : p = Ptr.node sl.nodes.length → ht ≤ lvl := by
      intro e
      exfalso
      rcases hshape with h | ⟨i, hpi, hiN⟩
      · rw [h] at e
        exact Ptr.noConfusion e
      · rw [hpi] at e
        injection e with e2
        omega
    by_cases hsplice : lvl < ht ∧ p = prevA.getD lvl Ptr.head
    · have hval : nsl.linkAt p lvl = some sl.nodes.length := by
        rw [hsplice.2]
        exact nlink_pred lvl hsplice.1
      constructor
      · intro j hj
        rw [hval] at hj
        have hjN : j = sl.nodes.length := (Option.some.inj hj).symm
        subst hjN
        refine ⟨by omega, ?_, by rw [nhgt_new]; exact hsplice.1, ?_⟩
        · rw [nkey_new]
          refine (nptrLt p key.1 hshape).mpr ?_
          rw [hsplice.2]
          exact hpLt lvl hsplice.1
        · intro u hu hpu huk
          rw [nkey_new] at huk
          by_cases huN : u < sl.nodes.length
          · rw [nkey_old u huN] at hpu huk
            have hpu2 : sl.ptrLt p ((sl.keyAt u).1) := (nptrLt p _ hshape).mp hpu
            rw [hsplice.2] at hpu2
            rw [nhgt_old u huN]
            exact hpBet lvl hsplice.1 u huN hpu2 huk
          · have huN2 : u = sl.nodes.length := by rw [nlen] at hu; omega
            rw [huN2, nkey_new] at huk
            exact absurd huk (lt_irrefl _)
      · intro hn
        rw [hval] at hn
        exact Option.noConfusion hn
    · have hq2 : lvl < ht → p ≠ prevA.getD lvl Ptr.head := fun h1 h2 => hsplice ⟨h1, h2⟩
      have hval : nsl.linkAt p lvl = sl.linkAt p lvl := nlink_other p lvl hq1 hq2 hshape
      obtain ⟨hsome, hnone⟩ := hwf.links p hok lvl hlen
      constructor
      · intro j hj
        rw [hval] at hj
        obtain ⟨hjN, hjlt, hjh, hjskip⟩ := hsome j hj
        refine ⟨by rw [nlen]; omega, ?_, by rw [nhgt_old j hjN]; exact hjh, ?_⟩
        · rw [nkey_old j hjN]
          exact (nptrLt p _ hshape).mpr hjlt
        · intro u hu hpu huj
          rw [nkey_old j hjN] at huj
          by_cases huN : u < sl.nodes.length
          · rw [nkey_old u huN] at hpu huj
            rw [nhgt_old u huN]
            exact hjskip u huN ((nptrLt p _ hshape).mp hpu) huj
          · have huN2 : u = sl.nodes.length := by rw [nlen] at hu; omega
            rw [huN2, nhgt_new]
            rw [huN2, nkey_new] at hpu huj
            refine new_node_tall_le hwf hpred hh2 hok hlen
              ((nptrLt p _ hshape).mp hpu) hsplice ?_
            exact Or.inl ⟨j, hj, hjN, huj⟩
      · intro hn u hu hpu
        rw [hval] at hn
        by_cases huN : u < sl.nodes.length
        · rw [nkey_old u huN] at hpu
          rw [nhgt_old u huN]
          exact hnone hn u huN ((nptrLt p _ hshape).mp hpu)
        · have huN2 : u = sl.nodes.length := by rw [nlen] at hu; omega
          rw [huN2, nhgt_new]
          rw [huN2, nkey_new] at hpu
          exact new_node_tall_le hwf hpred hh2 hok hlen
            ((nptrLt p _ hshape).mp hpu) hsplice (Or.inr hn)
  -- the new node's link specification
  have new_case : ∀ lvl, lvl < ht → nsl.linkSpec (Ptr.node sl.nodes.length) lvl := by
    intro lvl hl
    have hval := nlink_new lvl hl
    have hplok := hpOk lvl hl
    have hpllen := hpLen lvl hl
    cases hplv : sl.linkAt (prevA.getD lvl Ptr.head) lvl with
    | some j =>
      obtain ⟨hjN, hjlt, hjh, hjskip⟩ := (hwf.links _ hplok lvl hpllen).1 j hplv
      have hkj : key.1 < (sl.keyAt j).1 := by
        rcases Nat.lt_trichotomy key.1 ((sl.keyAt j).1) with h | h | h
        · exact h
        · exact absurd h.symm (habs j hjN)
        · have := hpBet lvl hl j hjN hjlt h
          omega
      constructor
      · intro j2 hj2
        rw [hval, hplv] at hj2
        have hjj : j2 = j := (Option.some.inj hj2).symm
        subst hjj
        refine ⟨by rw [nlen]; omega, ?_, by rw [nhgt_old j2 hjN]; exact hjh, ?_⟩
        · rw [ptrLt_node, nkey_new, nkey_old j2 hjN]
          exact hkj
        · intro u hu hpu huj
          rw [nkey_old j2 hjN] at huj
          rw [ptrLt_node, nkey_new] at hpu
          by_cases huN : u < sl.nodes.length
          · rw [nkey_old u huN] at hpu huj
            rw [nhgt_old u huN]
            exact hjskip u huN (ptrLt_mono (hpLt lvl hl) (le_of_lt hpu)) huj
          · have huN2 : u = sl.nodes.length := by rw [nlen] at hu; omega
            rw [huN2, nkey_new] at hpu
            exact absurd hpu (lt_irrefl _)
      · intro hn
        rw [hval, hplv] at hn
        exact Option.noConfusion hn
    | none =>
      have hnone2 := (hwf.links _ hplok lvl hpllen).2 hplv
      constructor
      · intro j hj
        rw [hval, hplv] at hj
        exact Option.noConfusion hj
      · intro _ u hu hpu
        rw [ptrLt_node, nkey_new] at hpu
        by_cases huN : u < sl.nodes.length
        · rw [nkey_old u huN] at hpu
          rw [nhgt_old u huN]
          exact hnone2 u huN (ptrLt_mono (hpLt lvl hl) (le_of_lt hpu))
        · have huN2 : u = sl.nodes.length := by rw [nlen] at hu; omega
          rw [huN2, nkey_new] at hpu
          exact absurd hpu (lt_irrefl _)
  -- assemble well-formedness
  refine ⟨⟨nheadlen, ?_, ?_, ?_, ?_, ?_⟩, nlen, nkey_old, nkey_new⟩
  · intro i hi
    rw [nlen] at hi
    by_cases hiN : i < sl.nodes.length
    · rw [nhgt_old i hiN]
      exact hwf.height_pos i hiN
    · have : i = sl.nodes.length := by omega
      rw [this, nhgt_new]
      exact hh1
  · intro i hi
    rw [nlen] at hi
    rw [hchn]
    by_cases hiN : i < sl.nodes.length
    · rw [nhgt_old i hiN]
      exact le_trans (hwf.height_le i hiN) (le_max_left _ _)
    · have : i = sl.nodes.length := by omega
      rw [this, nhgt_new]
      exact le_max_right _ _
  · rw [hchn]
    exact max_le hwf.ch_le hh2
  · intro i hi j hj hij
    rw [nlen] at hi hj
    by_cases hiN : i < sl.nodes.length
    · by_cases hjN : j < sl.nodes.length
      · rw [nkey_old i hiN, nkey_old j hjN]
        exact hwf.distinct i hiN j hjN hij
      · have : j = sl.nodes.length := by omega
        rw [this, nkey_old i hiN, nkey_new]
        exact habs i hiN
    · have hiN2 : i = sl.nodes.length := by omega
      have hjN : j < sl.nodes.length := by omega
      rw [hiN2, nkey_old j hjN, nkey_new]
      exact fun e => habs j hjN e.symm
  · intro p hok lvl hlvl
    cases p with
    | head =>
      refine old_case Ptr.head (Or.inl rfl) trivial lvl ?_
      rw [hlinkLenS] at hlvl
      have hlvl2 : lvl < Hh := by
        have : nsl.linkLen Ptr.head = Hh := by rw [linkLen_head, nheadlen]
        rw [hlinkLenS] at this
        omega
      rw [linkLen_head, hwf.head_len]
      exact hlvl2
    | node u =>
      have hu : u < sl.nodes.length + 1 := by
        have h2 : u < nsl.nodes.length := hok
        rw [nlen] at h2
        exact h2
      by_cases huN : u < sl.nodes.length
      · refine old_case (Ptr.node u) (Or.inr ⟨u, rfl, huN⟩) huN lvl ?_
        rw [linkLen_node, nhgt_old u huN] at hlvl
        rw [linkLen_node]
        exact hlvl
      · have huN2 : u = sl.nodes.length := by omega
        rw [huN2] at hlvl ⊢
        apply new_case lvl
        rw [linkLen_node, nhgt_new] at hlvl
        exact hlvl

/-- Facts about `insert` when it finds a node with an equal key: the key field
of that very node is overwritten and nothing else changes. -/
theorem insert_found_facts {Hh : Nat} {sl : SkipList} {coins : Nat → Bool} {key : Key} {j : Nat}
    (hwf : sl.WF Hh) (hres : (find_equal_or_less_then Hh sl key).1 = some j) :
    (sl.insert Hh coins key).WF Hh ∧
    (sl.insert Hh coins key).nodes.length = sl.nodes.length ∧
    (sl.insert Hh coins key).current_size = sl.current_size ∧
    (sl.insert Hh coins key).current_height = sl.current_height ∧
    (sl.insert Hh coins key).head = sl.head ∧
    (∀ u, ((sl.insert Hh coins key).nodes.getD u default).links =
      (sl.nodes.getD u default).links) ∧
    j < sl.nodes.length ∧
    (sl.insert Hh coins key).keyAt j = key ∧
    (∀ u, u ≠ j → (sl.insert Hh coins key).keyAt u = sl.keyAt u) := by
  obtain ⟨_, hsome, _⟩ := find_spec hwf key
  obtain ⟨hjN, hkj⟩ := hsome j hres
  rw [insert_eq_found hres]
  have hlinks : ∀ u,
      ((sl.nodes.set j { sl.nodes.getD j default with key := key }).getD u default).links =
        (sl.nodes.getD u default).links := by
    intro u
    by_cases hu : u = j
    · subst hu
      rw [getD_set_self _ _ _ _ hjN]
    · rw [getD_set_ne _ _ _ _ _ (fun e => hu e.symm)]
  have hkeyat_j :
      (({ sl with nodes := sl.nodes.set j { sl.nodes.getD j default with key := key } } :
        SkipList)).keyAt j = key := by
    show ((sl.nodes.set j { sl.nodes.getD j default with key := key }).getD j default).key = key
    rw [getD_set_self _ _ _ _ hjN]
  have hkeyat_ne : ∀ u, u ≠ j →
      (({ sl with nodes := sl.nodes.set j { sl.nodes.getD j default with key := key } } :
        SkipList)).keyAt u = sl.keyAt u := by
    intro u hu
    show ((sl.nodes.set j { sl.nodes.getD j default with key := key }).getD u default).key =
      (sl.nodes.getD u default).key
    rw [getD_set_ne _ _ _ _ _ (fun e => hu e.symm)]
  have hkey1 : ∀ u,
      ((({ sl with nodes := sl.nodes.set j { sl.nodes.getD j default with key := key } } :
        SkipList)).keyAt u).1 = (sl.keyAt u).1 := by
    intro u
    by_cases hu : u = j
    · subst hu
      rw [hkeyat_j, hkj]
    · rw [hkeyat_ne u hu]
  have hhgtu : ∀ u,
      (({ sl with nodes := sl.nodes.set j { sl.nodes.getD j default with key := key } } :
        SkipList)).heightOf u = sl.heightOf u := by
    intro u
    show ((sl.nodes.set j { sl.nodes.getD j default with key := key }).getD u default).links.length
      = (sl.nodes.getD u default).links.length
    rw [hlinks u]
  have hlinku : ∀ q lvl,
      (({ sl with nodes := sl.nodes.set j { sl.nodes.getD j default with key := key } } :
        SkipList)).linkAt q lvl = sl.linkAt q lvl := by
    intro q lvl
    cases q with
    | head => rfl
    | node u =>
      show ((sl.nodes.set j { sl.nodes.getD j default with key := key }).getD
        u default).links.getD lvl none = (sl.nodes.getD u default).links.getD lvl none
      rw [hlinks u]
  exact ⟨WF_congr (by simp) hkey1 hhgtu hlinku rfl rfl hwf, by simp, rfl, rfl, rfl, hlinks,
    hjN, hkeyat_j, hkeyat_ne⟩

/-- `insert` preserves well-formedness and adds exactly the inserted key's
order position to the stored key set. -/
theorem insert_preserves {Hh : Nat} {sl : SkipList} (hwf : sl.WF Hh) (hH : 1 ≤ Hh)
    (coins : Nat → Bool) (key : Key) :
    (sl.insert Hh coins key).WF Hh ∧
    (∀ x, (sl.insert Hh coins key).hasKey x ↔ sl.hasKey x ∨ x = key.1) := by
  cases hres : (find_equal_or_less_then Hh sl key).1 with
  | some j =>
    obtain ⟨_, hsome, _⟩ := find_spec hwf key
    obtain ⟨_, hkj⟩ := hsome j hres
    obtain ⟨hwf2, hlen, _, _, _, _, hjN, hkeyj, hkeyne⟩ := insert_found_facts hwf hres
    refine ⟨hwf2, ?_⟩
    intro x
    constructor
    · rintro ⟨i, hi, hx⟩
      rw [hlen] at hi
      by_cases hij : i = j
      · subst hij
        rw [hkeyj] at hx
        exact Or.inr hx.symm
      · rw [hkeyne i hij] at hx
        exact Or.inl ⟨i, hi, hx⟩
    · intro hx
      rcases hx with ⟨i, hi, hx⟩ | hx
      · by_cases hij : i = j
        · subst hij
          refine ⟨i, by rw [hlen]; exact hjN, ?_⟩
          rw [hkeyj, ← hx]
          exact hkj.symm
        · exact ⟨i, by rw [hlen]; exact hi, by rw [hkeyne i hij]; exact hx⟩
      · refine ⟨j, by rw [hlen]; exact hjN, ?_⟩
        rw [hkeyj, hx]
  | none =>
    obtain ⟨_, _, hnonec⟩ := find_spec hwf key
    obtain ⟨habs, hpred⟩ := hnonec hres
    obtain ⟨hh1, hh2⟩ := random_height_bounds Hh coins hH
    obtain ⟨hwf2, hlen, hold, hnew⟩ :=
      splice_preserves_WF hwf hh1 hh2 habs hpred (insert_eq_none hres)
    refine ⟨hwf2, ?_⟩
    intro x
    constructor
    · rintro ⟨i, hi, hx⟩
      rw [hlen] at hi
      by_cases hiN : i < sl.nodes.length
      · rw [hold i hiN] at hx
        exact Or.inl ⟨i, hiN, hx⟩
      · have hieq : i = sl.nodes.length := by omega
        rw [hieq, hnew] at hx
        exact Or.inr hx.symm
    · intro hx
      rcases hx with ⟨i, hi, hx⟩ | hx
      · exact ⟨i, by rw [hlen]; omega, by rw [hold i hi]; exact hx⟩
      · exact ⟨sl.nodes.length, by rw [hlen]; omega, by rw [hnew, hx]⟩

/-- A fresh list is well-formed. -/
theorem new_WF (H : Nat) : (SkipList.new H).WF H := by
  refine ⟨by simp [SkipList.new], ?_, ?_, by simp [SkipList.new], ?_, ?_⟩
  · intro i hi
    exact absurd hi (by simp [SkipList.new])
  · intro i hi
    exact absurd hi (by simp [SkipList.new])
  · intro i hi
    exact absurd hi (by simp [SkipList.new])
  · intro p hok lvl hlvl
    constructor
    · intro j hj
      exfalso
      cases p with
      | head =>
        have hnone : (SkipList.new H).linkAt Ptr.head lvl = none :=
          getD_replicate_self H lvl none
        rw [hnone] at hj
        exact Option.noConfusion hj
      | node i =>
        have hnone : (SkipList.new H).linkAt (Ptr.node i) lvl = none := rfl
        rw [hnone] at hj
        exact Option.noConfusion hj
    · intro _ u hu
      exact absurd hu (by simp [SkipList.new])

theorem foldl_insert_WF (Hh : Nat) (hH : 1 ≤ Hh) :
    ∀ ops : List (Key × (Nat → Bool)), ∀ sl : SkipList, sl.WF Hh →
      (List.foldl (fun sl op => sl.insert Hh op.2 op.1) sl ops).WF Hh ∧
      (∀ x, (List.foldl (fun sl op => sl.insert Hh op.2 op.1) sl ops).hasKey x ↔
        sl.hasKey x ∨ x ∈ insertedKeys ops) := by
  intro ops
  induction ops with
  | nil =>
    intro sl hwf
    exact ⟨hwf, fun x => by simp [insertedKeys]⟩
  | cons op ops ih =>
    intro sl hwf
    obtain ⟨hwf1, hchar1⟩ := insert_preserves hwf hH op.2 op.1
    obtain ⟨hwf2, hchar2⟩ := ih (sl.insert Hh op.2 op.1) hwf1
    refine ⟨by rw [List.foldl_cons]; exact hwf2, ?_⟩
    intro x
    rw [List.foldl_cons, hchar2 x, hchar1 x]
    simp only [insertedKeys, List.map_cons, List.mem_cons]
    tauto

/-- The state after any finite insert sequence is well-formed and stores
exactly the inserted key positions. -/
theorem applyInserts_WF (Hh : Nat) (hH : 1 ≤ Hh) (ops : List (Key × (Nat → Bool))) :
    (applyInserts Hh ops).WF Hh ∧
    (∀ x, (applyInserts Hh ops).hasKey x ↔ x ∈ insertedKeys ops) := by
  obtain ⟨hwf, hchar⟩ := foldl_insert_WF Hh hH ops (SkipList.new Hh) (new_WF Hh)
  refine ⟨hwf, fun x => ?_⟩
  unfold applyInserts
  rw [hchar x]
  have hempty : ¬ (SkipList.new Hh).hasKey x := by
    rintro ⟨i, hi, _⟩
    exact absurd hi (by simp [SkipList.new])
  tauto

/-! Chain traversal lemmas. -/

theorem mem_afterSet {sl : SkipList} {p : Ptr} {lvl u : Nat} :
    u ∈ sl.afterSet p lvl ↔
      u < sl.nodes.length ∧ sl.ptrLt p ((sl.keyAt u).1) ∧ lvl < sl.heightOf u := by
  rw [SkipList.afterSet, Finset.mem_filter, Finset.mem_range]

theorem afterSet_card_le (sl : SkipList) (p : Ptr) (lvl : Nat) :
    (sl.afterSet p lvl).card ≤ sl.nodes.length := by
  calc (sl.afterSet p lvl).card ≤ (Finset.range sl.nodes.length).card :=
        Finset.card_filter_le _ _
    _ = sl.nodes.length := Finset.card_range _

/-- The level-`lvl` chain leaving any pointer visits exactly the nodes beyond
it that participate in the level, in strictly ascending key order. -/
theorem chainFrom_spec {Hh : Nat} {sl : SkipList} (hwf : sl.WF Hh) (lvl : Nat) :
    ∀ fuel p, sl.ptrOk p → lvl < sl.linkLen p → (sl.afterSet p lvl).card < fuel →
      (∀ u, u ∈ chainFrom sl lvl fuel (sl.linkAt p lvl) ↔
        (u < sl.nodes.length ∧ lvl < sl.heightOf u ∧ sl.ptrLt p ((sl.keyAt u).1))) ∧
      List.Pairwise (fun a b => (sl.keyAt a).1 < (sl.keyAt b).1)
        (chainFrom sl lvl fuel (sl.linkAt p lvl)) := by
  intro fuel
  induction fuel with
  | zero =>
    intro p hok hlen hcard
    omega
  | succ fuel ih =>
    intro p hok hlen hcard
    cases hlink : sl.linkAt p lvl with
    | none =>
      constructor
      · intro u
        constructor
        · intro hu
          exact absurd hu (by simp [chainFrom])
        · rintro ⟨hu1, hu2, hu3⟩
          have := hwf.spec_none hok hlen hlink u hu1 hu3
          omega
      · simp [chainFrom]
    | some j =>
      obtain ⟨hjN, hjlt, hjh, hjskip⟩ := hwf.spec_some hok hlen hlink
      have hsub : sl.afterSet (Ptr.node j) lvl ⊆ sl.afterSet p lvl := by
        intro u hu
        rw [mem_afterSet] at hu ⊢
        exact ⟨hu.1, ptrLt_mono hjlt (le_of_lt hu.2.1), hu.2.2⟩
      have hjmem : j ∈ sl.afterSet p lvl := mem_afterSet.mpr ⟨hjN, hjlt, hjh⟩
      have hjnot : j ∉ sl.afterSet (Ptr.node j) lvl := by
        rw [mem_afterSet]
        rintro ⟨_, h, _⟩
        exact absurd h (lt_irrefl _)
      have hcard2 : (sl.afterSet (Ptr.node j) lvl).card < fuel := by
        have hss : sl.afterSet (Ptr.node j) lvl ⊂ sl.afterSet p lvl :=
          (Finset.ssubset_iff_of_subset hsub).mpr ⟨j, hjmem, hjnot⟩
        have := Finset.card_lt_card hss
        omega
      obtain ⟨ihmem, ihsorted⟩ := ih (Ptr.node j) hjN (by rw [linkLen_node]; exact hjh) hcard2
      have hchain : chainFrom sl lvl (fuel + 1) (some j) =
          j :: chainFrom sl lvl fuel (sl.linkAt (Ptr.node j) lvl) := rfl
      rw [hchain]
      constructor
      · intro u
        rw [List.mem_cons, ihmem u]
        constructor
        · intro hu
          rcases hu with he | ⟨h1, h2, h3⟩
          · subst he
            exact ⟨hjN, hjh, hjlt⟩
          · exact ⟨h1, h2, ptrLt_mono hjlt (le_of_lt h3)⟩
        · rintro ⟨h1, h2, h3⟩
          rcases Nat.lt_trichotomy ((sl.keyAt u).1) ((sl.keyAt j).1) with hlt | heq | hgt
          · have := hjskip u h1 h3 hlt
            omega
          · left
            by_contra hne
            exact hwf.distinct u h1 j hjN hne heq
          · right
            exact ⟨h1, h2, hgt⟩
      · rw [List.pairwise_cons]
        constructor
        · intro b hb
          exact ((ihmem b).mp hb).2.2
        · exact ihsorted

/-- The full level-`lvl` chain of a well-formed list visits exactly the nodes
of height above `lvl`, in strictly ascending key order. -/
theorem levelChain_spec {Hh : Nat} {sl : SkipList} (hwf : sl.WF Hh) (lvl : Nat)
    (hlvl : lvl < Hh) :
    (∀ u, u ∈ levelChain sl lvl ↔ (u < sl.nodes.length ∧ lvl < sl.heightOf u)) ∧
    List.Pairwise (fun a b => (sl.keyAt a).1 < (sl.keyAt b).1) (levelChain sl lvl) := by
  have hlen : lvl < sl.linkLen Ptr.head := by
    rw [linkLen_head, hwf.head_len]
    exact hlvl
  have hcard : (sl.afterSet Ptr.head lvl).card < sl.nodes.length + 1 :=
    lt_of_le_of_lt (afterSet_card_le sl Ptr.head lvl) (by omega)
  obtain ⟨hmem, hsorted⟩ :=
    chainFrom_spec hwf lvl (sl.nodes.length + 1) Ptr.head trivial hlen hcard
  constructor
  · intro u
    unfold levelChain
    rw [hmem u]
    constructor
    · rintro ⟨h1, h2, _⟩
      exact ⟨h1, h2⟩
    · rintro ⟨h1, h2⟩
      exact ⟨h1, h2, trivial⟩
  · exact hsorted

/-- Levels at or above the height bound have an empty chain. -/
theorem levelChain_out {Hh : Nat} {sl : SkipList} (hwf : sl.WF Hh) (lvl : Nat)
    (hlvl : Hh ≤ lvl) : levelChain sl lvl = [] := by
  unfold levelChain
  have hnone : sl.linkAt Ptr.head lvl = none := by
    show sl.head.links.getD lvl none = none
    rw [getD_eq_of_le _ _ _ (by rw [hwf.head_len]; exact hlvl)]
  rw [hnone]
  rfl

/-! Claim theorems. -/

/-- C1 (evaluation at the failing input): on the list holding keys 10, 20, 30,
`seek(5)` leaves the cursor on the sentinel (its key read yields the default
key, not 10 — yet 10 is stored and is the smallest key at least 5), and
`seek(31)` from the node holding 30 leaves the cursor unchanged and still
valid instead of deterministically invalidating it. -/
theorem C1_seek_failing_eval :
    ((exList.into_iter).seek ((5 : Nat), (0 : Nat))).current = some Ptr.head ∧
    ((exList.into_iter).seek ((5 : Nat), (0 : Nat))).key = some ((0 : Nat), (0 : Nat)) ∧
    exList.keyAt 0 = ((10 : Nat), (0 : Nat)) ∧
    exList.nodes.length = 3 ∧
    (exIterAtLast.seek ((31 : Nat), (0 : Nat))) = exIterAtLast ∧
    (exIterAtLast.seek ((31 : Nat), (0 : Nat))).valid = true := by decide

/-- C2 (evaluation at the failing input): `estimate_count` ignores its key and
returns `current_size`; with keys 10, 20, 30 stored it answers 3 for target 5
although no stored key is below 5 (the empty-list sub-claim does hold). -/
theorem C2_estimate_count_failing_eval :
    exList.estimate_count ((5 : Nat), (0 : Nat)) = 3 ∧
    ((levelChain exList 0).filter (fun i => decide ((exList.keyAt i).1 < 5))).length = 0 ∧
    (SkipList.new 4).estimate_count ((7 : Nat), (7 : Nat)) = 0 := by decide

/-- C3 (evaluation at the failing input): `seek_to_first` unconditionally sets
the cursor to the sentinel head, so on an empty list `valid()` is true (the
trait documentation requires Valid() iff the list is non-empty), and on a
non-empty list the cursor sits on the sentinel (key read yields the default
key), not on the first real node (node 0, key 10). -/
theorem C3_seek_to_first_failing_eval :
    (((SkipList.new 4).into_iter).seek_to_first).valid = true ∧
    (((SkipList.new 4).into_iter).seek_to_first).current = some Ptr.head ∧
    ((exList.into_iter).seek_to_first).current = some Ptr.head ∧
    ((exList.into_iter).seek_to_first).key = some ((0 : Nat), (0 : Nat)) ∧
    exList.linkAt Ptr.head 0 = some 0 ∧
    exList.keyAt 0 = ((10 : Nat), (0 : Nat)) := by decide

/-- C4 (counterexample): a valid cursor on the last node (key 30, no level-0
successor) stays valid and in place after `advance()`, contradicting the
claim that `advance` makes the cursor invalid when no successor exists. -/
theorem C4_advance_counterexample :
    exIterAtLast.valid = true ∧
    exIterAtLast.current = some (Ptr.node 2) ∧
    (exIterAtLast.skip_list.nodeAt (Ptr.node 2)).links.getD 0 none = none ∧
    exIterAtLast.advance = exIterAtLast ∧
    (exIterAtLast.advance).valid = true := by decide

/-- C4 (amended): for every valid cursor, `advance()` moves to the level-0
successor of the current node when that successor exists, and leaves the
cursor entirely unchanged (still valid, same position) when there is none. -/
theorem C4_advance_amended (it : Iter) (p : Ptr) (hcur : it.current = some p) :
    (∀ j, (it.skip_list.nodeAt p).links.getD 0 none = some j →
      it.advance = { it with current := some (Ptr.node j) }) ∧
    ((it.skip_list.nodeAt p).links.getD 0 none = none → it.advance = it) := by
  constructor
  · intro j hj
    simp only [Iter.advance, hcur, hj]
  · intro hj
    simp only [Iter.advance, hcur, hj]

/-- C4 witness: the amended statement applied to the concrete cursor sitting
on the last node of the example list. -/
theorem C4_advance_amended_witness :
    exIterAtLast.current = some (Ptr.node 2) ∧
    ((exIterAtLast.skip_list.nodeAt (Ptr.node 2)).links.getD 0 none = none →
      exIterAtLast.advance = exIterAtLast) :=
  ⟨by decide, (C4_advance_amended exIterAtLast (Ptr.node 2) (by decide)).2⟩

/-- C5: after any finite insert sequence from a new list, `contains(K)` is
true exactly when some inserted key compares equal to `K` (first components
equal under the chosen order). -/
theorem C5_contains_correct (H : Nat) (hH : 1 ≤ H) (ops : List (Key × (Nat → Bool)))
    (k : Key) :
    (applyInserts H ops).contains H k = true ↔ k.1 ∈ insertedKeys ops := by
  obtain ⟨hwf, hchar⟩ := applyInserts_WF H hH ops
  rw [contains_iff hwf k, hchar k.1]

/-- C5 witness. -/
theorem C5_contains_correct_witness :
    1 ≤ 2 ∧ ((applyInserts 2 wOps).contains 2 ((10 : Nat), (5 : Nat)) = true ↔
      (10 : Nat) ∈ insertedKeys wOps) :=
  ⟨by decide, C5_contains_correct 2 (by decide) wOps ((10 : Nat), (5 : Nat))⟩

/-- C6: after any finite insert sequence from a new list, the full level-0
forward traversal from the sentinel yields strictly ascending key values,
and its key set is exactly the set of inserted keys — so each distinct
inserted key is visited exactly once, with no duplicates. -/
theorem C6_level0_traversal (H : Nat) (hH : 1 ≤ H) (ops : List (Key × (Nat → Bool))) :
    List.Pairwise (fun a b => a < b)
      ((levelChain (applyInserts H ops) 0).map (fun i => ((applyInserts H ops).keyAt i).1)) ∧
    (∀ x : Nat, x ∈ (levelChain (applyInserts H ops) 0).map
      (fun i => ((applyInserts H ops).keyAt i).1) ↔ x ∈ insertedKeys ops) := by
  obtain ⟨hwf, hchar⟩ := applyInserts_WF H hH ops
  obtain ⟨hmem, hsorted⟩ := levelChain_spec hwf 0 (by omega)
  constructor
  · rw [List.pairwise_map]
    exact hsorted
  · intro x
    rw [List.mem_map, ← hchar x]
    constructor
    · rintro ⟨i, hi, hx⟩
      rw [hmem i] at hi
      exact ⟨i, hi.1, hx⟩
    · rintro ⟨i, hi, hx⟩
      refine ⟨i, ?_, hx⟩
      rw [hmem i]
      have := hwf.height_pos i hi
      exact ⟨hi, by omega⟩

/-- C6 witness. -/
theorem C6_level0_traversal_witness :
    1 ≤ 2 ∧
    (List.Pairwise (fun a b => a < b)
      ((levelChain (applyInserts 2 wOps) 0).map (fun i => ((applyInserts 2 wOps).keyAt i).1)) ∧
    (∀ x : Nat, x ∈ (levelChain (applyInserts 2 wOps) 0).map
      (fun i => ((applyInserts 2 wOps).keyAt i).1) ↔ x ∈ insertedKeys wOps)) :=
  ⟨by decide, C6_level0_traversal 2 (by decide) wOps⟩

/-- C7: inserting a key that compares equal to an already-present key leaves
the entry count, height, sentinel and the whole link structure unchanged, and
afterwards exactly one node carries that key, holding the most recently
inserted data (the full new key value, payload included). -/
theorem C7_update_not_duplicate (H : Nat) (hH : 1 ≤ H) (ops : List (Key × (Nat → Bool)))
    (key : Key) (coins : Nat → Bool) (hpres : key.1 ∈ insertedKeys ops) :
    ((applyInserts H ops).insert H coins key).current_size =
      (applyInserts H ops).current_size ∧
    ((applyInserts H ops).insert H coins key).nodes.length =
      (applyInserts H ops).nodes.length ∧
    ((applyInserts H ops).insert H coins key).current_height =
      (applyInserts H ops).current_height ∧
    ((applyInserts H ops).insert H coins key).head = (applyInserts H ops).head ∧
    (∀ u, (((applyInserts H ops).insert H coins key).nodes.getD u default).links =
      ((applyInserts H ops).nodes.getD u default).links) ∧
    (∃ j, j < ((applyInserts H ops).insert H coins key).nodes.length ∧
      ((applyInserts H ops).insert H coins key).keyAt j = key ∧
      ∀ u, u < ((applyInserts H ops).insert H coins key).nodes.length → u ≠ j →
        (((applyInserts H ops).insert H coins key).keyAt u).1 ≠ key.1) := by
  obtain ⟨hwf, hchar⟩ := applyInserts_WF H hH ops
  have hhas : (applyInserts H ops).hasKey key.1 := (hchar key.1).mpr hpres
  cases hres : (find_equal_or_less_then H (applyInserts H ops) key).1 with
  | none =>
    exfalso
    obtain ⟨_, _, hnonec⟩ := find_spec hwf key
    obtain ⟨habs, _⟩ := hnonec hres
    obtain ⟨i, hi, hk⟩ := hhas
    exact habs i hi hk
  | some j =>
    obtain ⟨_, hsome, _⟩ := find_spec hwf key
    obtain ⟨hjN, hkj⟩ := hsome j hres
    obtain ⟨_, hlen, hsz, hch, hhd, hlinks, _, hkeyj, hkeyne⟩ :=
      @insert_found_facts H (applyInserts H ops) coins key j hwf hres
    refine ⟨hsz, hlen, hch, hhd, hlinks, j, by rw [hlen]; exact hjN, hkeyj, ?_⟩
    intro u hu hne
    rw [hkeyne u hne]
    rw [hlen] at hu
    have := hwf.distinct u hu j hjN hne
    rw [hkj] at this
    exact this

/-- C7 witness: re-inserting key 10 with a different payload into the list
built from `wOps`. -/
theorem C7_update_not_duplicate_witness :
    1 ≤ 2 ∧ (10 : Nat) ∈ insertedKeys wOps ∧
    ((applyInserts 2 wOps).insert 2 coinsF ((10 : Nat), (9 : Nat))).current_size =
      (applyInserts 2 wOps).current_size :=
  ⟨by decide, by decide,
    (C7_update_not_duplicate 2 (by decide) wOps ((10 : Nat), (9 : Nat)) coinsF (by decide)).1⟩

/-- C8: after any finite insert sequence, every node on the level-`L` forward
chain (`L > 0`) also lies on the level-`(L-1)` chain. -/
theorem C8_level_inclusion (H : Nat) (hH : 1 ≤ H) (ops : List (Key × (Nat → Bool)))
    (L : Nat) (hL : 0 < L) (u : Nat) (hu : u ∈ levelChain (applyInserts H ops) L) :
    u ∈ levelChain (applyInserts H ops) (L - 1) := by
  obtain ⟨hwf, _⟩ := applyInserts_WF H hH ops
  by_cases hLH : L < H
  · obtain ⟨hmemL, _⟩ := levelChain_spec hwf L hLH
    obtain ⟨hmemL1, _⟩ := levelChain_spec hwf (L - 1) (by omega)
    rw [hmemL u] at hu
    rw [hmemL1 u]
    exact ⟨hu.1, by omega⟩
  · rw [levelChain_out hwf L (by omega)] at hu
    exact absurd hu (List.not_mem_nil u)

/-- C8 witness: node 1 (key 5, height 2) lies on the level-1 chain of the
`wOps` list and also on its level-0 chain. -/
theorem C8_level_inclusion_witness :
    1 ≤ 2 ∧ 0 < 1 ∧ (1 : Nat) ∈ levelChain (applyInserts 2 wOps) 1 ∧
    (1 : Nat) ∈ levelChain (applyInserts 2 wOps) (1 - 1) :=
  ⟨by decide, by decide, by decide,
    C8_level_inclusion 2 (by decide) wOps 1 (by decide) 1 (by decide)⟩

/-- C9: for every outcome of the random bit source the chosen height lies in
`[1, MAX_HEIGHT]`, every coin before the stopping point came up heads, and
unless the cap was hit the next coin came up tails — i.e. the height is one
plus the number of consecutive successful fair draws, stopped at the first
failure or at the cap. -/
theorem C9_height_policy (H : Nat) (coins : Nat → Bool) (hH : 1 ≤ H) :
    1 ≤ random_height H coins ∧ random_height H coins ≤ H ∧
    (∀ i, i + 1 < random_height H coins → coins i = true) ∧
    (random_height H coins < H → coins (random_height H coins - 1) = false) := by
  obtain ⟨h1, h2, h3, h4⟩ :=
    randomHeightGo_spec coins H H 1 0 (Nat.le_refl 1) hH (by omega)
  refine ⟨h1, h2, ?_, ?_⟩
  · intro i hi
    have hi2 : i + 1 < randomHeightGo coins H H 1 0 := hi
    have := h3 i (by omega)
    simpa using this
  · intro hlt
    have := h4 hlt
    simpa using this

/-- C9 witness: two heads then tails under cap 4 gives height 3. -/
theorem C9_height_policy_witness :
    1 ≤ 4 ∧ 1 ≤ random_height 4 coinsW ∧ random_height 4 coinsW ≤ 4 :=
  ⟨by decide, (C9_height_policy 4 coinsW (by decide)).1, (C9_height_policy 4 coinsW (by decide)).2.1⟩

/-- C10: an iterator starts at the sentinel head and no cursor operation ever
clears `current`, so `valid()` holds in every reachable iterator state. -/
theorem C10_iterator_always_valid (sl : SkipList) (ops : List IterOp) :
    (sl.into_iter).current = some Ptr.head ∧
    (applyIterOps (sl.into_iter) ops).valid = true := by
  refine ⟨rfl, ?_⟩
  have main : ∀ (l : List IterOp) (it : Iter), it.valid = true →
      (applyIterOps it l).valid = true := by
    intro l
    induction l with
    | nil =>
      intro it h
      exact h
    | cons op ops ih =>
      intro it h
      show (List.foldl applyIterOp it (op :: ops)).valid = true
      rw [List.foldl_cons]
      apply ih
      cases op with
      | seekToFirst => rfl
      | seekTo t =>
        show (it.seek t).valid = true
        cases hf : find_equal_or_greater_then it.skip_list t with
        | some j =>
          simp only [Iter.seek, hf]
          rfl
        | none =>
          simp only [Iter.seek, hf]
          exact h
      | advance =>
        show (it.advance).valid = true
        cases hc : it.current with
        | none =>
          simp only [Iter.advance, hc]
          exact h
        | some p =>
          cases hl : (it.skip_list.nodeAt p).links.getD 0 none with
          | some j =>
            simp only [Iter.advance, hc, hl]
            rfl
          | none =>
            simp only [Iter.advance, hc, hl]
            exact h
      | next =>
        show ((it.next).2).valid = true
        cases hc : it.current with
        | none =>
          simp only [Iter.next, hc]
          exact h
        | some p =>
          cases hl : (it.skip_list.nodeAt p).links.getD 0 none with
          | some j =>
            simp only [Iter.next, hc, hl]
            rfl
          | none =>
            simp only [Iter.next, hc, hl]
            exact h
  exact main ops (sl.into_iter) rfl

end Limonite
